import Mathlib

/-!
Verification of `overlay_two_images.py`.

The program composites an ad image into the largest transparent region of a
foreground overlay image and orchestrates a batch of such jobs.  We embed the
pixel-level pipeline (`process_single_image`, lines 37-94) and the batch
orchestration (`main`, lines 96-165) as executable Lean definitions and prove
the specification claims about them.

Modelling conventions:
* a `PixelBuffer` (numpy `ndarray` of shape h x w x ch, dtype uint8) is a
  structure carrying its dimensions and a pixel-access function; sample values
  are `Nat` (uint8 values are 0..255, stated as hypotheses where needed);
* float arithmetic in the blend (`fg * alpha_3d + bg * (1 - alpha_3d)`) is
  embedded as exact rational arithmetic; the final `astype(np.uint8)`
  truncation of a nonnegative value is floor, i.e. `Nat` division;
* `cv2` library calls are embedded by their documented contracts (each
  definition carries a comment explaining the embedding);
* network and disk I/O (`requests`, `cv2.imwrite`, Supabase upload) are
  external collaborators: they are oracles supplied as parameters, returning
  `Option` results exactly as the Python code turns their failures into
  `None` / `False` return values.
-/

/-- A decoded image: `h` rows, `w` columns, `ch` channels (3 = BGR opaque,
4 = BGRA with alpha in channel 3), 8-bit samples.  `pix` is row-column-channel
access (`img[y, x, c]` in numpy). -/
structure Img where
  h : Nat
  w : Nat
  ch : Nat
  pix : Nat → Nat → Nat → Nat

/-- One channel of the alpha blend on line 91, with the float64 arithmetic
idealized as exact rational arithmetic: `(fg * (a/255) + bg * (1 - a/255))`
truncated to uint8, i.e. `(f*a + b*(255-a)) / 255` in `Nat` division.  At
`a = 0` and `a = 255` the float64 computation is bit-exact, so this
simplification agrees with the program there (the cases the theorems about
`composite` use).  At intermediate alphas float64 rounding can make the
program's value differ by one from this ideal value; `blendChanF` below is
the bit-accurate embedding used for the rounding-sensitive claim. -/
def blendChan (f b a : Nat) : Nat :=
  (f * a + b * (255 - a)) / 255

/-- Lines 85-91: per-pixel alpha composite of the 4-channel foreground over a
same-sized 3-channel background, producing a 3-channel result.  Channel 3 of
`fg` is the alpha channel (`overlay_img[:, :, 3]`). -/
def composite (fg bg : Img) : Img :=
  { h := fg.h, w := fg.w, ch := 3,
    pix := fun j i c => blendChan (fg.pix j i c) (bg.pix j i c) (fg.pix j i 3) }

theorem blendChan_opaque (f b : Nat) : blendChan f b 255 = f := by
  simp [blendChan]

/-- **C5.** For every 3-channel background `bg` and every same-sized 4-channel
foreground `fg` whose alpha channel is 255 at every pixel, the alpha
compositor's output equals `fg`'s RGB channels exactly: the blend is a no-op
at alpha = 255. -/
theorem C5_composite_fully_opaque_noop (fg bg : Img)
    (halpha : ∀ j i, fg.pix j i 3 = 255) :
    ∀ j i c, (composite fg bg).pix j i c = fg.pix j i c := by
  intro j i c
  simp [composite, halpha j i, blendChan_opaque]

/-- Witness for C5 at a concrete fully opaque foreground. -/
theorem C5_composite_fully_opaque_noop_witness :
    (composite
      { h := 1, w := 1, ch := 4, pix := fun _ _ c => if c = 3 then 255 else 77 }
      { h := 1, w := 1, ch := 3, pix := fun _ _ _ => 9 }).pix 0 0 0
    = ({ h := 1, w := 1, ch := 4, pix := fun _ _ c => if c = 3 then 255 else 77 } : Img).pix 0 0 0 :=
  C5_composite_fully_opaque_noop
    { h := 1, w := 1, ch := 4, pix := fun _ _ c => if c = 3 then 255 else 77 }
    { h := 1, w := 1, ch := 3, pix := fun _ _ _ => 9 }
    (fun _ _ => by simp) 0 0 0

/-! ### Aspect-fill resizer (lines 64-80) -/

/-- `cv2.resize(img, (nw, nh))`: an image of exactly the requested dimensions.
The resampling filter is an implementation detail of the library; we model it
as floor-sampling from the source.  No claim in this development depends on
the sampled pixel values, only on the output dimensions. -/
def cvResize (img : Img) (nw nh : Nat) : Img :=
  { h := nh, w := nw, ch := img.ch,
    pix := fun j i c => img.pix (j * img.h / nh) (i * img.w / nw) c }

/-- Numpy column slice `img[:, a:b]` (with `0 ≤ a ≤ b`): keeps columns
`a .. min b w - 1`. -/
def sliceCols (img : Img) (a b : Nat) : Img :=
  { h := img.h, w := min b img.w - a, ch := img.ch,
    pix := fun j i c => img.pix j (a + i) c }

/-- Numpy row slice `img[a:b, :]` (with `0 ≤ a ≤ b`): keeps rows
`a .. min b h - 1`. -/
def sliceRows (img : Img) (a b : Nat) : Img :=
  { h := min b img.h - a, w := img.w, ch := img.ch,
    pix := fun j i c => img.pix (a + j) i c }

/-- Lines 64-78: scale the ad so that it covers the `w` x `h` target box while
preserving its aspect ratio, then centre-crop the excess on one axis.
`ad_aspect = ad.w / ad.h` and `box_aspect = w / h` are Python float divisions,
embedded as exact rationals; `int(...)` on the positive products is floor,
i.e. `Nat` division; the Python floor division `// 2` of the (provably
nonnegative, see `C4`) excess is `Nat` division. -/
def fitCrop (ad : Img) (w h : Nat) : Img :=
  if ((ad.w : ℚ) / (ad.h : ℚ)) > ((w : ℚ) / (h : ℚ)) then
    let nw := h * ad.w / ad.h
    let resized := cvResize ad nw h
    let cx := (nw - w) / 2
    sliceCols resized cx (cx + w)
  else
    let nh := w * ad.h / ad.w
    let resized := cvResize ad w nh
    let cy := (nh - h) / 2
    sliceRows resized cy (cy + h)

/-- Lines 64-80: the full aspect-fill resizer, ending with the exact resize
`cv2.resize(ad_resized, (w, h))` of line 80. -/
def fitAd (ad : Img) (w h : Nat) : Img :=
  cvResize (fitCrop ad w h) w h

theorem fitCrop_wide_nw_ge (aw ah w h : Nat) (hah : 0 < ah) (hh : 0 < h)
    (hasp : ((aw : ℚ) / (ah : ℚ)) > ((w : ℚ) / (h : ℚ))) :
    w ≤ h * aw / ah := by
  have hasp2 : ((w : ℚ) / (h : ℚ)) < ((aw : ℚ) / (ah : ℚ)) := hasp
  rw [div_lt_div_iff₀ (by exact_mod_cast hh) (by exact_mod_cast hah)] at hasp2
  have hcross : w * ah < aw * h := by exact_mod_cast hasp2
  refine (Nat.le_div_iff_mul_le hah).mpr ?_
  calc w * ah ≤ aw * h := Nat.le_of_lt hcross
    _ = h * aw := Nat.mul_comm aw h

theorem fitCrop_tall_nh_ge (aw ah w h : Nat) (haw : 0 < aw) (hh : 0 < h)
    (hasp : ¬ ((aw : ℚ) / (ah : ℚ)) > ((w : ℚ) / (h : ℚ))) (hah : 0 < ah) :
    h ≤ w * ah / aw := by
  have hle : ((aw : ℚ) / (ah : ℚ)) ≤ ((w : ℚ) / (h : ℚ)) := le_of_not_lt hasp
  rw [div_le_div_iff₀ (by exact_mod_cast hah) (by exact_mod_cast hh)] at hle
  have hcross : aw * h ≤ w * ah := by exact_mod_cast hle
  refine (Nat.le_div_iff_mul_le haw).mpr ?_
  calc h * aw = aw * h := Nat.mul_comm h aw
    _ ≤ w * ah := hcross

/-- **C4.** For every source image (positive dimensions) and every valid
target box (positive width and height), the aspect-fill resizer returns an
image of exactly the target's width and height — for any source aspect ratio,
including degenerate 1xN and Nx1 sources.  Moreover the intermediate
centre-cropped image (`ad_resized` before line 80) already has exactly the
target dimensions, so the final exact resize of line 80 operates on a
nonempty image. -/
theorem C4_fit_exact_dims (ad : Img) (w h : Nat)
    (haw : 0 < ad.w) (hah : 0 < ad.h) (hw : 0 < w) (hh : 0 < h) :
    (fitAd ad w h).w = w ∧ (fitAd ad w h).h = h ∧
    (fitCrop ad w h).w = w ∧ (fitCrop ad w h).h = h := by
  refine ⟨rfl, rfl, ?_, ?_⟩ <;>
  · unfold fitCrop
    by_cases hasp : ((ad.w : ℚ) / (ad.h : ℚ)) > ((w : ℚ) / (h : ℚ))
    · have hnw : w ≤ h * ad.w / ad.h := fitCrop_wide_nw_ge ad.w ad.h w h hah hh hasp
      simp only [if_pos hasp, sliceCols, cvResize] <;> omega
    · have hnh : h ≤ w * ad.h / ad.w := fitCrop_tall_nh_ge ad.w ad.h w h haw hh hasp hah
      simp only [if_neg hasp, sliceRows, cvResize] <;> omega

/-- Witness for C4 with a degenerate 1xN source and a 2x3 target. -/
theorem C4_fit_exact_dims_witness :
    (fitAd { h := 1, w := 7, ch := 3, pix := fun _ _ _ => 5 } 2 3).w = 2 ∧
    (fitAd { h := 1, w := 7, ch := 3, pix := fun _ _ _ => 5 } 2 3).h = 3 ∧
    (fitCrop { h := 1, w := 7, ch := 3, pix := fun _ _ _ => 5 } 2 3).w = 2 ∧
    (fitCrop { h := 1, w := 7, ch := 3, pix := fun _ _ _ => 5 } 2 3).h = 3 :=
  C4_fit_exact_dims { h := 1, w := 7, ch := 3, pix := fun _ _ _ => 5 } 2 3
    (by simp) (by simp) (by simp) (by simp)

/-! ### Transparent-region locator (lines 53-62)

The code builds the mask `(alpha < 255) * 255`, calls
`cv2.findContours(mask, cv2.RETR_EXTERNAL, cv2.CHAIN_APPROX_SIMPLE)`, takes
`max(contours, key=cv2.contourArea)` and returns `cv2.boundingRect` of it.

Embedding of the `cv2` contract:
* with `RETR_EXTERNAL`, `findContours` returns exactly one contour per
  8-connected component of the nonzero pixels: the component's external
  boundary, traced through pixel centres (border following).  We represent
  each contour by the raster-order-first pixel of its component (the pixel at
  which border following starts) and recompute the traced point list with
  `traceContour` when needed;
* `cv2.contourArea` is the shoelace (surveyor) area of the traced closed
  polygon, `|sum of cross products| / 2`;
* `cv2.boundingRect` of an external contour is the axis-aligned bounding box
  of the traced points; since the external boundary of a component contains
  the component's extremal pixels in every axis direction, this equals the
  bounding box of the component's pixel set, and we compute it as such
  (`compBBox`);
* Python's `max(..., key=...)` keeps the first element among key ties
  (`pyMaxBy`).  Contour order only matters on area ties, which no input in
  this development exhibits.

Pixel coordinates are `(x, y) : ℤ × ℤ` with y pointing down; the mask is a
function that is `false` outside the image bounds (`findContours` treats the
border as background). -/

def addp (p q : ℤ × ℤ) : ℤ × ℤ := (p.1 + q.1, p.2 + q.2)

def subp (p q : ℤ × ℤ) : ℤ × ℤ := (p.1 - q.1, p.2 - q.2)

/-- The 8 king-move neighbour offsets, clockwise in image coordinates
(x right, y down), starting from east. -/
def dirOff : Nat → ℤ × ℤ
  | 0 => (1, 0)
  | 1 => (1, 1)
  | 2 => (0, 1)
  | 3 => (-1, 1)
  | 4 => (-1, 0)
  | 5 => (-1, -1)
  | 6 => (0, -1)
  | _ => (1, -1)

/-- Index of a king-move offset in the clockwise order above. -/
def dirIdx (o : ℤ × ℤ) : Nat :=
  if o = (1, 0) then 0
  else if o = (1, 1) then 1
  else if o = (0, 1) then 2
  else if o = (-1, 1) then 3
  else if o = (-1, 0) then 4
  else if o = (-1, -1) then 5
  else if o = (0, -1) then 6
  else 7

/-- The 8-neighbourhood of a pixel. -/
def nbrs8 (p : ℤ × ℤ) : List (ℤ × ℤ) :=
  (List.range 8).map (fun i => addp p (dirOff i))

/-- Line 54: the binary mask `(alpha < 255)`, as a predicate on signed
coordinates that is `false` outside the image. -/
def alphaMask (img : Img) : ℤ → ℤ → Bool := fun x y =>
  decide (0 ≤ x ∧ x < (img.w : ℤ) ∧ 0 ≤ y ∧ y < (img.h : ℤ)) &&
  decide (img.pix y.toNat x.toNat 3 < 255)

/-- One step of connected-component closure: add every mask pixel that is
8-adjacent to the current set. -/
def expand (m : ℤ → ℤ → Bool) (s : List (ℤ × ℤ)) : List (ℤ × ℤ) :=
  (s ++ (s.flatMap nbrs8).filter (fun q => m q.1 q.2)).dedup

/-- Iterate `expand` at most `fuel` times, stopping at the fixed point (once
no new pixel is added, further iterations change nothing). -/
def compIter (m : ℤ → ℤ → Bool) : Nat → List (ℤ × ℤ) → List (ℤ × ℤ)
  | 0, s => s
  | fuel + 1, s =>
    let s2 := expand m s
    if s2 = s then s else compIter m fuel s2

/-- The 8-connected component of `p` in the mask (fuel `w*h` reaches every
pixel of the component). -/
def compList (m : ℤ → ℤ → Bool) (fuel : Nat) (p : ℤ × ℤ) : List (ℤ × ℤ) :=
  compIter m fuel [p]

/-- Raster-scan order of a pixel (row-major, top to bottom). -/
def rasterIdx (W : Nat) (p : ℤ × ℤ) : ℤ := p.2 * W + p.1

/-- All pixel coordinates of a `W` x `H` image in raster order. -/
def gridPts (W H : Nat) : List (ℤ × ℤ) :=
  (List.range H).flatMap (fun y =>
    (List.range W).map (fun x => (Int.ofNat x, Int.ofNat y)))

/-- The starting pixels of the external contours: the raster-order-first mask
pixel of each 8-connected component (border following starts there). -/
def startPts (m : ℤ → ℤ → Bool) (W H : Nat) : List (ℤ × ℤ) :=
  (gridPts W H).filter (fun p =>
    m p.1 p.2 &&
    (compList m (W * H) p).all (fun q => rasterIdx W p ≤ rasterIdx W q))

/-- Border-following neighbour search: scan the 8 neighbours of `c`
clockwise, starting just after the backtrack direction `b`, and return the
direction index of the first mask pixel found. -/
def findNext (m : ℤ → ℤ → Bool) (c : ℤ × ℤ) (b : Nat) : Option Nat :=
  ((List.range 8).map (fun j => (b + 1 + j) % 8)).find?
    (fun i => let q := addp c (dirOff i); m q.1 q.2)

/-- Successor state of the border-following walk: from pixel `c` entered with
backtrack direction `b`, move to the first clockwise mask neighbour; the new
backtrack direction points at the last background pixel examined before it. -/
def traceStep (m : ℤ → ℤ → Bool) (c : ℤ × ℤ) (b : Nat) : Option ((ℤ × ℤ) × Nat) :=
  match findNext m c b with
  | none => none
  | some i =>
    let n := addp c (dirOff i)
    some (n, dirIdx (subp (addp c (dirOff ((i + 7) % 8))) n))

/-- Fueled border-following loop: emit pixels until the walk re-enters the
state `stop` (the state reached after the very first step), closing the
external boundary. -/
def traceGo (m : ℤ → ℤ → Bool) (stop : (ℤ × ℤ) × Nat) :
    Nat → (ℤ × ℤ) × Nat → List (ℤ × ℤ)
  | 0, st => [st.1]
  | fuel + 1, st =>
    match traceStep m st.1 st.2 with
    | none => [st.1]
    | some st2 =>
      if st2 = stop then [st.1]
      else st.1 :: traceGo m stop fuel st2

/-- The external boundary of the component whose raster-first pixel is `s`,
as the closed polygon of border pixels produced by border following (the
model of the contour returned by `findContours`).  The walk starts with the
backtrack direction pointing west (`s` is the raster-first pixel of its
component, so its west and north neighbours are background). -/
def traceContour (m : ℤ → ℤ → Bool) (fuel : Nat) (s : ℤ × ℤ) : List (ℤ × ℤ) :=
  match traceStep m s 4 with
  | none => [s]
  | some st1 => s :: traceGo m st1 fuel st1

/-- Twice the signed shoelace area of a closed polygon given by its vertex
list (the edge back from the last vertex to the first is implicit). -/
def shoelace2 : List (ℤ × ℤ) → ℤ
  | [] => 0
  | p0 :: rest => go p0 (p0 :: rest)
where
  go (p0 : ℤ × ℤ) : List (ℤ × ℤ) → ℤ
  | [] => 0
  | [p] => p.1 * p0.2 - p0.1 * p.2
  | p :: q :: rest => (p.1 * q.2 - q.1 * p.2) + go p0 (q :: rest)

/-- Twice `cv2.contourArea`: the absolute shoelace area of the traced
polygon, doubled.  `cv2.contourArea` itself is `|shoelace| / 2` (a float
that is always an exact multiple of 0.5); `max` only compares areas, and
comparison of the doubled values is equivalent, so the locator uses this
integer-valued key. -/
def cvContourArea2 (pts : List (ℤ × ℤ)) : Nat :=
  (shoelace2 pts).natAbs

/-- Python `max(l, key=k)`: the first element of `l` attaining the maximal
key (raises on an empty list, hence `Option`). -/
def pyMaxBy {α β : Type} [LT β] [DecidableRel (fun a b : β => a < b)]
    (k : α → β) : List α → Option α
  | [] => none
  | a :: t => some (t.foldl (fun best x => if k best < k x then x else best) a)

def lminX (l : List (ℤ × ℤ)) : ℤ :=
  match l with
  | [] => 0
  | a :: t => t.foldl (fun acc q => min acc q.1) a.1

def lmaxX (l : List (ℤ × ℤ)) : ℤ :=
  match l with
  | [] => 0
  | a :: t => t.foldl (fun acc q => max acc q.1) a.1

def lminY (l : List (ℤ × ℤ)) : ℤ :=
  match l with
  | [] => 0
  | a :: t => t.foldl (fun acc q => min acc q.2) a.2

def lmaxY (l : List (ℤ × ℤ)) : ℤ :=
  match l with
  | [] => 0
  | a :: t => t.foldl (fun acc q => max acc q.2) a.2

/-- `cv2.boundingRect` of the external contour starting at `s`: the
`(x, y, w, h)` bounding box of the component's pixels (see the section
comment: for an external contour this coincides with the bounding box of the
traced boundary). -/
def compBBox (m : ℤ → ℤ → Bool) (fuel : Nat) (s : ℤ × ℤ) : ℤ × ℤ × ℤ × ℤ :=
  let c := compList m fuel s
  (lminX c, lminY c, lmaxX c - lminX c + 1, lmaxY c - lminY c + 1)

/-- Lines 53-62: the transparent-region locator.  Returns `none` when the
mask has no nonzero pixel (`if not contours: return False`), otherwise the
bounding rectangle of the contour with the largest `cv2.contourArea`. -/
def locate (img : Img) : Option (ℤ × ℤ × ℤ × ℤ) :=
  let m := alphaMask img
  let fuel := img.w * img.h
  match pyMaxBy (fun s => cvContourArea2 (traceContour m (8 * fuel + 8) s))
      (startPts m img.w img.h) with
  | none => none
  | some s => some (compBBox m fuel s)

/-- The selector that §4.1 of the specification describes, stated from the
spec's words for comparison with `locate`: among the maximal 8-connected
components of flagged pixels, select the one with the greatest **pixel
area** (number of pixels), and return its axis-aligned bounding box.
(`compList` is duplicate-free, so its length is the component's pixel
count.) -/
def specLocate (img : Img) : Option (ℤ × ℤ × ℤ × ℤ) :=
  let m := alphaMask img
  let fuel := img.w * img.h
  match pyMaxBy (fun s => (compList m fuel s).length)
      (startPts m img.w img.h) with
  | none => none
  | some s => some (compBBox m fuel s)

/-! ### Pair processor (lines 37-94) -/

/-- Lines 46-47: `cv2.cvtColor(ad_img, cv2.COLOR_BGRA2BGR)` — drop the alpha
channel, keeping the BGR samples unchanged (straight channel drop, no
blending). -/
def flattenBGR (img : Img) : Img :=
  { h := img.h, w := img.w, ch := 3, pix := img.pix }

/-- Lines 82-83: a black 3-channel canvas of the foreground's size with the
fitted ad pasted at the bounding box offset (`canvas[y:y+h, x:x+w] = ad_resized`). -/
def canvasOf (fgH fgW : Nat) (ad : Img) (x y w h : ℤ) : Img :=
  { h := fgH, w := fgW, ch := 3,
    pix := fun j i c =>
      if x ≤ (i : ℤ) ∧ (i : ℤ) < x + w ∧ y ≤ (j : ℤ) ∧ (j : ℤ) < y + h then
        ad.pix ((j : ℤ) - y).toNat ((i : ℤ) - x).toNat c
      else 0 }

/-- Lines 46-94 of `process_single_image`, after both downloads succeeded:
flatten a 4-channel ad, require the foreground to have an alpha channel,
locate the largest transparent region, fit the ad into it, paste it on a
black canvas and alpha-composite the foreground over the canvas.  `none`
models every `return False` path. -/
def processPair (fg ad : Img) : Option Img :=
  let ad2 := if ad.ch = 4 then flattenBGR ad else ad
  if fg.ch = 4 then
    match locate fg with
    | none => none
    | some (x, y, w, h) =>
      let fitted := fitAd ad2 w.toNat h.toNat
      let canvas := canvasOf fg.h fg.w fitted x y w h
      some (composite fg canvas)
  else none

/-- Concrete 5x4 foreground for the C1 counterexample: alpha is 0 on a
1-pixel-thick 5-pixel line (row 0) and on a 2x2 square (rows 2-3, columns
0-1), 255 elsewhere; BGR samples are 100. -/
def fgC1 : Img :=
  { h := 4, w := 5, ch := 4,
    pix := fun j i c =>
      if c = 3 then
        if (j = 0 ∧ i < 5) ∨ (2 ≤ j ∧ j < 4 ∧ i < 2) then 0 else 255
      else 100 }

/-- Concrete 5x4 foreground for the C3 counterexample: a 2x2 transparent
square (rows 2-3, columns 0-1) and one lone transparent pixel at (4, 0);
opaque elsewhere; BGR samples are 200. -/
def fgC3 : Img :=
  { h := 4, w := 5, ch := 4,
    pix := fun j i c =>
      if c = 3 then
        if (2 ≤ j ∧ j < 4 ∧ i < 2) ∨ (j = 0 ∧ i = 4) then 0 else 255
      else 200 }

/-- Concrete 1x1 solid ad image. -/
def adOne : Img :=
  { h := 1, w := 1, ch := 3, pix := fun _ _ _ => 30 }

/-! ### Batch orchestrator (lines 96-165)

JSON values are a small inductive; `jstr` carries, besides the characters,
the result of `json.loads` applied to those characters (`none` when they are
not valid JSON), so that the orchestrator's second-stage unwrapping
(line 119) is a total function.  A job record (`item`) is the underlying
key-value list of a JSON object; Python `dict` assignment updates the value
in place when the key exists and appends the pair otherwise.

External collaborators are an `Env` of oracles:
* `fetch` models `download_image` (lines 13-20) composed with
  `cv2.imdecode`: `none` covers both a non-200 HTTP status and a failed
  decode (both paths hand `None` to the caller);
* `upload` models `upload_to_supabase` (lines 22-35): `some url` is the
  public URL on HTTP 200/201, `none` the failure path.  The unique uploaded
  object name (`overlay_{uuid4}`) only makes the URL unique; the oracle
  abstracts the name generation.

The transient file of each iteration (`temp_{uuid4.hex[:8]}.jpg`, line 140)
is modelled as the name `tmpName idx` of the iteration index: uuid names are
fresh, which the file-system theorems take as the hypothesis that no
`tmpName i` pre-exists.  The file system is the finite set of existing file
names; `cv2.imwrite` (line 93) inserts the name, `os.remove` (line 158)
erases it. -/

inductive JVal where
  | jnull : JVal
  | jbool : Bool → JVal
  | jnum : ℤ → JVal
  | jstr : String → Option JVal → JVal
  | jlist : List JVal → JVal
  | jdict : List (String × JVal) → JVal

/-- A job record: the key-value list of a JSON object. -/
abbrev Job := List (String × JVal)

/-- Python truthiness of a JSON value (`if not fg_url`). -/
def truthy : JVal → Bool
  | JVal.jnull => false
  | JVal.jbool b => b
  | JVal.jnum n => n ≠ 0
  | JVal.jstr s _ => s ≠ ""
  | JVal.jlist l => !l.isEmpty
  | JVal.jdict kvs => !kvs.isEmpty

/-- `item.get(k)`: `none` when the key is absent. -/
def dictGet (item : Job) (k : String) : Option JVal :=
  match item with
  | [] => none
  | (k2, v) :: t => if k2 = k then some v else dictGet t k

/-- `k in item`. -/
def dictHasKey (item : Job) (k : String) : Bool :=
  (dictGet item k).isSome

/-- `item[k] = v`: update in place if the key exists, append otherwise. -/
def dictSet (item : Job) (k : String) (v : JVal) : Job :=
  match item with
  | [] => [(k, v)]
  | (k2, v2) :: t => if k2 = k then (k2, v) :: t else (k2, v2) :: dictSet t k v

/-- The external collaborators of one run. -/
structure Env where
  fetch : JVal → Option Img
  upload : Img → Option String

/-- The transient artifact name of iteration `idx`
(`temp_{uuid4.hex[:8]}.jpg`, with the uuid modelled by the iteration
index). -/
def tmpName (idx : Nat) : String :=
  "temp_" ++ toString idx ++ ".jpg"

/-- Lines 37-94, `process_single_image(fg_url, ad_url, ...)`: download both
images, then run the pixel pipeline.  `none` models `return False`; `some`
carries the image written to the transient file by `cv2.imwrite`. -/
def procSingle (env : Env) (fgu adu : JVal) : Option Img :=
  match env.fetch fgu with
  | none => none
  | some fg =>
    match env.fetch adu with
    | none => none
    | some ad => processPair fg ad

/-- Lines 150-153: on success, `item["final_image"] = public_url` and, when
absent, `item["meta_ad_creative_id"] = None`. -/
def augment (item : Job) (url : String) : Job :=
  let i2 := dictSet item "final_image" (JVal.jstr url none)
  if dictHasKey i2 "meta_ad_creative_id" then i2
  else dictSet i2 "meta_ad_creative_id" JVal.jnull

/-- The result record contributed by one job, if any: the composition of the
per-job checks of lines 133-155 (required URLs truthy, processing succeeds,
upload succeeds). -/
def jobResult (env : Env) (item : Job) : Option Job :=
  match dictGet item "fg_image", dictGet item "ad_image" with
  | some fgu, some adu =>
    if truthy fgu && truthy adu then
      match procSingle env fgu adu with
      | some img =>
        match env.upload img with
        | some url => some (augment item url)
        | none => none
      | none => none
    else none
  | _, _ => none

/-- Lines 131-160: one iteration of the batch loop, transforming the pair
(file system, results) for the job at index `idx`.  Processing failure skips
before any file is written (`cv2.imwrite` runs only on success paths);
after the upload attempt the file is removed when it exists (lines
157-158). -/
def batchStep (env : Env) (st : Finset String × List Job) (p : Nat × Job) :
    Finset String × List Job :=
  let idx := p.1
  let item := p.2
  match dictGet item "fg_image", dictGet item "ad_image" with
  | some fgu, some adu =>
    if truthy fgu && truthy adu then
      let tmp := tmpName idx
      match procSingle env fgu adu with
      | some img =>
        let fs2 := insert tmp st.1
        let fs3 := if tmp ∈ fs2 then fs2.erase tmp else fs2
        match env.upload img with
        | some url => (fs3, st.2 ++ [augment item url])
        | none => (fs3, st.2)
      | none => st
    else st
  | _, _ => st

/-- Lines 129-160: the whole batch loop over the enumerated jobs, starting
from file system `fs0` and an empty result list. -/
def runBatch (env : Env) (fs0 : Finset String) (jobs : List Job) :
    Finset String × List Job :=
  (jobs.enum).foldl (batchStep env) (fs0, [])

/-- Lines 111-119 after the initial parse: unwrap a dict nested under the
`images_json` wrapper key (lines 114-115), then a doubly-encoded string by
parsing it again (lines 118-119).  The result is the value that the
`isinstance(items, list)` check of line 121 inspects; `none` models a parse
exception raised by the second `json.loads` (caught on line 125, fatal). -/
def unwrapValue (v : JVal) : Option JVal :=
  let v1 := match v with
    | JVal.jdict kvs =>
      match dictGet kvs "images_json" with
      | some w => w
      | none => JVal.jdict kvs
    | w => w
  match v1 with
  | JVal.jstr _ p => p
  | w => some w

/-- Lines 111-127: the full input unwrapping; `none` models `sys.exit(1)`
(parse exception or non-list top-level value). -/
def unwrapItems (v : JVal) : Option (List JVal) :=
  match unwrapValue v with
  | some (JVal.jlist l) => some l
  | _ => none

/-- A list item as a job record.  The Python code calls `item.get(...)` on
each element: for a JSON object this is dict lookup; a non-object element
would raise `AttributeError` (uncaught, aborting the run) — no claim
exercises that path, and the model reads such an element as an empty
record, which the loop then skips. -/
def itemAsJob : JVal → Job
  | JVal.jdict kvs => kvs
  | _ => []

/-- Lines 96-165, `main` after configuration: parse result `v` in, result
list out; `none` is a fatal exit before any job runs. -/
def mainModel (env : Env) (v : JVal) : Option (List Job) :=
  match unwrapItems v with
  | none => none
  | some l => some (runBatch env ∅ (l.map itemAsJob)).2

/-! ### Batch orchestration theorems -/

theorem batchStep_results (env : Env) (fs : Finset String) (acc : List Job)
    (n : Nat) (item : Job) :
    ((batchStep env (fs, acc) (n, item)).2 = acc ++ (jobResult env item).toList) := by
  unfold batchStep jobResult
  cases hf : dictGet item "fg_image" with
  | none => simp [hf]
  | some fgu =>
    cases ha : dictGet item "ad_image" with
    | none => simp [hf, ha]
    | some adu =>
      by_cases ht : (truthy fgu && truthy adu) = true
      · cases hp : procSingle env fgu adu with
        | none => simp [hf, ha, ht, hp]
        | some img =>
          cases hu : env.upload img with
          | none => simp [hf, ha, ht, hp, hu]
          | some url => simp [hf, ha, ht, hp, hu]
      · simp only [Bool.and_eq_true] at ht
        simp [hf, ha, ht]

theorem runBatch_foldl_results (env : Env) (l : List Job) :
    ∀ (n : Nat) (fs : Finset String) (acc : List Job),
    ((l.enumFrom n).foldl (batchStep env) (fs, acc)).2 =
      acc ++ l.filterMap (jobResult env) := by
  induction l with
  | nil => intro n fs acc; simp
  | cons a t ih =>
    intro n fs acc
    rw [List.enumFrom_cons, List.foldl_cons]
    have hstep := batchStep_results env fs acc n a
    rcases hst : batchStep env (fs, acc) (n, a) with ⟨fs2, acc2⟩
    rw [hst] at hstep
    simp only at hstep
    rw [ih (n + 1) fs2 acc2, hstep]
    cases hj : jobResult env a with
    | none => simp [List.filterMap_cons, hj]
    | some r => simp [List.filterMap_cons, hj]

theorem runBatch_results (env : Env) (fs : Finset String) (jobs : List Job) :
    (runBatch env fs jobs).2 = jobs.filterMap (jobResult env) := by
  have := runBatch_foldl_results env jobs 0 fs []
  simpa [runBatch, List.enum] using this

theorem filterMap_as_filter_map {α β : Type} (f : α → Option β) (d : β) :
    ∀ l : List α,
    l.filterMap f = (l.filter (fun a => (f a).isSome)).map (fun a => (f a).getD d) := by
  intro l
  induction l with
  | nil => simp
  | cons a t ih =>
    cases hf : f a with
    | none => simp [List.filterMap_cons, List.filter_cons, hf, ih]
    | some b => simp [List.filterMap_cons, List.filter_cons, hf, ih]

/-- **C7.** For every batch, the result set is exactly the successful jobs
(those whose per-job pipeline produces a record), each transformed by
`augment`, in the same relative order as in the input sequence; failed jobs
are omitted entirely and no error entry is ever appended. -/
theorem C7_results_order (env : Env) (fs : Finset String) (jobs : List Job) :
    (runBatch env fs jobs).2 =
      (jobs.filter (fun item => (jobResult env item).isSome)).map
        (fun item => (jobResult env item).getD []) := by
  rw [runBatch_results, filterMap_as_filter_map (jobResult env) []]

theorem filterMap_eraseIdx_of_none {α β : Type} (f : α → Option β) :
    ∀ (l : List α) (i : Nat) (h : i < l.length), f (l.get ⟨i, h⟩) = none →
    l.filterMap f = (l.eraseIdx i).filterMap f := by
  intro l
  induction l with
  | nil => intro i h; simp at h
  | cons a t ih =>
    intro i h hf
    cases i with
    | zero =>
      simp only [List.get] at hf
      simp [List.filterMap_cons, hf, List.eraseIdx]
    | succ j =>
      have hj : j < t.length := by simpa using h
      have := ih j hj (by simpa using hf)
      simp [List.filterMap_cons, List.eraseIdx, this]

/-- **C2.** A failure of any single job — any condition that makes the
per-job pipeline produce no record: missing/falsy URLs, fetch or decode
failure, missing alpha channel, no transparent region, upload failure —
causes exactly that job to be omitted from the result set: the batch result
equals the result of the batch with that job removed, so the remaining jobs
are all still processed.  (Witness: a batch of 3 jobs where job 2's
foreground lacks an alpha channel yields exactly the records of jobs 1
and 3.) -/
theorem C2_single_failure_isolated (env : Env) (fs : Finset String)
    (jobs : List Job) (i : Nat) (h : i < jobs.length)
    (hfail : jobResult env (jobs.get ⟨i, h⟩) = none) :
    (runBatch env fs jobs).2 = (runBatch env fs (jobs.eraseIdx i)).2 := by
  rw [runBatch_results, runBatch_results]
  exact filterMap_eraseIdx_of_none (jobResult env) jobs i h hfail

/-- Concrete 2x2 foreground with an alpha channel and one transparent pixel
at the origin. -/
def fgOkImg : Img :=
  { h := 2, w := 2, ch := 4,
    pix := fun j i c => if c = 3 then (if j = 0 ∧ i = 0 then 0 else 255) else 100 }

/-- Concrete 2x2 foreground with no alpha channel. -/
def fgNoAlpha : Img :=
  { h := 2, w := 2, ch := 3, pix := fun _ _ _ => 50 }

/-- Concrete environment: three known URLs, deterministic upload. -/
def env3 : Env :=
  { fetch := fun v =>
      match v with
      | JVal.jstr "http://fg-ok" _ => some fgOkImg
      | JVal.jstr "http://fg-bad" _ => some fgNoAlpha
      | JVal.jstr "http://ad" _ => some adOne
      | _ => none,
    upload := fun _ => some "https://public/overlay.jpg" }

def jobA : Job :=
  [("fg_image", JVal.jstr "http://fg-ok" none), ("ad_image", JVal.jstr "http://ad" none)]

def jobB : Job :=
  [("fg_image", JVal.jstr "http://fg-bad" none), ("ad_image", JVal.jstr "http://ad" none)]

def jobC : Job :=
  [("fg_image", JVal.jstr "http://fg-ok" none), ("ad_image", JVal.jstr "http://ad" none),
   ("meta_ad_creative_id", JVal.jnum 7)]

/-- Witness for C2: in the 3-job batch where job 2's foreground lacks an
alpha channel, the result set consists of exactly the (augmented) jobs 1
and 3. -/
theorem C2_single_failure_isolated_witness :
    (runBatch env3 ∅ [jobA, jobB, jobC]).2 =
      [augment jobA "https://public/overlay.jpg",
       augment jobC "https://public/overlay.jpg"] :=
  (C2_single_failure_isolated env3 ∅ [jobA, jobB, jobC] 1 (by simp) rfl).trans rfl

theorem dictGet_dictSet_self (item : Job) (k : String) (v : JVal) :
    dictGet (dictSet item k v) k = some v := by
  induction item with
  | nil => simp [dictSet, dictGet]
  | cons a t ih =>
    rcases a with ⟨k2, v2⟩
    by_cases hk : k2 = k
    · simp [dictSet, dictGet, hk]
    · simp [dictSet, dictGet, hk, ih]

theorem dictGet_dictSet_ne (item : Job) (k k2 : String) (v : JVal)
    (hne : k2 ≠ k) : dictGet (dictSet item k v) k2 = dictGet item k2 := by
  have hne2 : ¬ (k = k2) := fun h => hne h.symm
  induction item with
  | nil => simp [dictSet, dictGet, hne2]
  | cons a t ih =>
    rcases a with ⟨k3, v3⟩
    by_cases hk : k3 = k
    · subst hk
      simp [dictSet, dictGet, hne2]
    · simp [dictSet, dictGet, hk, ih]

theorem jobResult_success_shape (env : Env) (item : Job) (out : Job)
    (hsucc : jobResult env item = some out) :
    ∃ fgu adu img url, dictGet item "fg_image" = some fgu ∧
      dictGet item "ad_image" = some adu ∧
      procSingle env fgu adu = some img ∧ env.upload img = some url ∧
      out = augment item url := by
  unfold jobResult at hsucc
  cases hf : dictGet item "fg_image" with
  | none => rw [hf] at hsucc; simp at hsucc
  | some fgu =>
    cases ha : dictGet item "ad_image" with
    | none => rw [hf, ha] at hsucc; simp at hsucc
    | some adu =>
      rw [hf, ha] at hsucc
      by_cases ht : (truthy fgu && truthy adu) = true
      · simp only [Bool.and_eq_true] at ht
        simp only [ht, and_self, if_true] at hsucc
        cases hp : procSingle env fgu adu with
        | none => rw [hp] at hsucc; simp at hsucc
        | some img =>
          rw [hp] at hsucc
          cases hu : env.upload img with
          | none => simp [hu] at hsucc
          | some url =>
            simp only [hu, Bool.and_self, if_true] at hsucc
            rw [Option.some_inj] at hsucc
            exact ⟨fgu, adu, img, url, rfl, rfl, hp, hu, hsucc.symm⟩
      · simp [ht] at hsucc

/-- **C8.** A job record is transformed only on full success (processing and
upload): the transformation is exactly `augment`, which sets `final_image`
to the returned public URL, sets `meta_ad_creative_id` to the explicit null
marker only when the key was absent (and leaves it untouched when present),
and leaves every other field unchanged.  Every record of the result set is
`augment` of a successfully processed-and-uploaded input job; a job that
fails at any stage contributes nothing, its record untouched. -/
theorem C8_success_mutation (item : Job) (url : String) :
    (dictGet (augment item url) "final_image" = some (JVal.jstr url none)) ∧
    (dictHasKey item "meta_ad_creative_id" = false →
      dictGet (augment item url) "meta_ad_creative_id" = some JVal.jnull) ∧
    (dictHasKey item "meta_ad_creative_id" = true →
      dictGet (augment item url) "meta_ad_creative_id" =
        dictGet item "meta_ad_creative_id") ∧
    (∀ k, k ≠ "final_image" → k ≠ "meta_ad_creative_id" →
      dictGet (augment item url) k = dictGet item k) ∧
    (∀ env item2 out, jobResult env item2 = some out →
      ∃ img url2, env.upload img = some url2 ∧ out = augment item2 url2) := by
  have hkeys : ("meta_ad_creative_id" : String) ≠ "final_image" := by decide
  have hhas : dictHasKey (dictSet item "final_image" (JVal.jstr url none))
      "meta_ad_creative_id" = dictHasKey item "meta_ad_creative_id" := by
    unfold dictHasKey
    rw [dictGet_dictSet_ne item "final_image" "meta_ad_creative_id" _ hkeys]
  refine ⟨?_, ?_, ?_, ?_, ?_⟩
  · unfold augment
    by_cases hc : dictHasKey (dictSet item "final_image" (JVal.jstr url none))
        "meta_ad_creative_id" = true
    · simp only [hc, if_true]
      exact dictGet_dictSet_self item "final_image" _
    · simp only [hc, if_false, Bool.not_eq_true] at *
      rw [if_neg (by simp [hc])]
      rw [dictGet_dictSet_ne _ "meta_ad_creative_id" "final_image" _ hkeys.symm]
      exact dictGet_dictSet_self item "final_image" _
  · intro habs
    unfold augment
    rw [if_neg (by simp [hhas, habs])]
    exact dictGet_dictSet_self _ "meta_ad_creative_id" _
  · intro hpres
    unfold augment
    rw [if_pos (by simp [hhas, hpres])]
    exact dictGet_dictSet_ne item "final_image" "meta_ad_creative_id" _ hkeys
  · intro k hk1 hk2
    unfold augment
    by_cases hc : dictHasKey (dictSet item "final_image" (JVal.jstr url none))
        "meta_ad_creative_id" = true
    · simp only [hc, if_true]
      exact dictGet_dictSet_ne item "final_image" k _ hk1
    · rw [if_neg hc]
      rw [dictGet_dictSet_ne _ "meta_ad_creative_id" k _ hk2]
      exact dictGet_dictSet_ne item "final_image" k _ hk1
  · intro env item2 out hsucc
    obtain ⟨fgu, adu, img, url2, _, _, _, hu, hout⟩ :=
      jobResult_success_shape env item2 out hsucc
    exact ⟨img, url2, hu, hout⟩

/-- Witness for C8: a record without a creative-id field gets the URL and
the explicit null marker, and its other field is untouched. -/
theorem C8_success_mutation_witness :
    dictGet (augment [("x", JVal.jnum 1)] "u") "final_image"
      = some (JVal.jstr "u" none) ∧
    dictGet (augment [("x", JVal.jnum 1)] "u") "meta_ad_creative_id"
      = some JVal.jnull ∧
    dictGet (augment [("x", JVal.jnum 1)] "u") "x" = dictGet [("x", JVal.jnum 1)] "x" :=
  ⟨(C8_success_mutation [("x", JVal.jnum 1)] "u").1,
   (C8_success_mutation [("x", JVal.jnum 1)] "u").2.1 rfl,
   (C8_success_mutation [("x", JVal.jnum 1)] "u").2.2.2.1 "x" (by decide) (by decide)⟩

theorem batchStep_fs (env : Env) (fs : Finset String) (acc : List Job)
    (n : Nat) (item : Job) (hfresh : tmpName n ∉ fs) :
    (batchStep env (fs, acc) (n, item)).1 = fs := by
  unfold batchStep
  cases hf : dictGet item "fg_image" with
  | none => simp [hf]
  | some fgu =>
    cases ha : dictGet item "ad_image" with
    | none => simp [hf, ha]
    | some adu =>
      by_cases ht : (truthy fgu && truthy adu) = true
      · cases hp : procSingle env fgu adu with
        | none => simp [hf, ha, ht, hp]
        | some img =>
          cases hu : env.upload img with
          | none => simp [hf, ha, ht, hp, hu, Finset.erase_insert hfresh]
          | some url => simp [hf, ha, ht, hp, hu, Finset.erase_insert hfresh]
      · simp only [Bool.and_eq_true] at ht
        simp [hf, ha, ht]

theorem runBatch_foldl_fs (env : Env) (ps : List (Nat × Job)) :
    ∀ (st : Finset String × List Job), (∀ i, tmpName i ∉ st.1) →
    ((ps.foldl (batchStep env) st).1 = st.1) := by
  induction ps with
  | nil => intro st _; rfl
  | cons p t ih =>
    intro st hfresh
    rcases p with ⟨n, item⟩
    rcases st with ⟨fs, acc⟩
    rw [List.foldl_cons]
    have hstep : (batchStep env (fs, acc) (n, item)).1 = fs :=
      batchStep_fs env fs acc n item (hfresh n)
    have hrec := ih (batchStep env (fs, acc) (n, item))
      (by rw [hstep]; exact hfresh)
    rw [hrec, hstep]

/-- **C9.** For every prefix of the batch — i.e. after every completed job
iteration, whether that job was skipped, failed in processing, failed in
upload, or succeeded — the file system equals its initial state: the
transient artifact written by a successful processing run is always removed
after the upload attempt, and jobs that fail before persisting never create
one.  In particular no transient file (`tmpName i` fresh for every `i`)
exists after any iteration: no run leaks a temporary file. -/
theorem C9_no_temp_file_leak (env : Env) (fs0 : Finset String)
    (hfresh : ∀ i, tmpName i ∉ fs0) (jobs : List Job) (k : Nat) :
    (runBatch env fs0 (jobs.take k)).1 = fs0 ∧
    ∀ i, tmpName i ∉ (runBatch env fs0 (jobs.take k)).1 := by
  have h1 : (runBatch env fs0 (jobs.take k)).1 = fs0 :=
    runBatch_foldl_fs env (jobs.take k).enum (fs0, []) hfresh
  exact ⟨h1, fun i => by rw [h1]; exact hfresh i⟩

/-- Witness for C9 on the concrete 3-job batch after 2 iterations. -/
theorem C9_no_temp_file_leak_witness :
    (runBatch env3 ∅ ([jobA, jobB, jobC].take 2)).1 = ∅ ∧
    ∀ i, tmpName i ∉ (runBatch env3 ∅ ([jobA, jobB, jobC].take 2)).1 :=
  C9_no_temp_file_leak env3 ∅ (fun i => Finset.not_mem_empty _) [jobA, jobB, jobC] 2

/-- **C6.** The orchestrator unwraps batch input nested under the
`images_json` wrapper key and/or double-encoded as a string (in either
combination); when the unwrapped top-level value is not a sequence the run
fails fatally (`none`, a non-zero exit); and a double-encoded empty list
unwraps to the empty sequence and produces an empty result set, not an
error. -/
theorem C6_input_unwrapping :
    (∀ l, unwrapItems (JVal.jlist l) = some l) ∧
    (∀ kvs l, dictGet kvs "images_json" = some (JVal.jlist l) →
      unwrapItems (JVal.jdict kvs) = some l) ∧
    (∀ kvs s l, dictGet kvs "images_json" = some (JVal.jstr s (some (JVal.jlist l))) →
      unwrapItems (JVal.jdict kvs) = some l) ∧
    (∀ s l, unwrapItems (JVal.jstr s (some (JVal.jlist l))) = some l) ∧
    (∀ v, (∀ l, unwrapValue v ≠ some (JVal.jlist l)) → unwrapItems v = none) ∧
    (∀ env v, unwrapItems v = none → mainModel env v = none) ∧
    (∀ env s, mainModel env (JVal.jstr s (some (JVal.jlist []))) = some []) := by
  refine ⟨?_, ?_, ?_, ?_, ?_, ?_, ?_⟩
  · intro l; rfl
  · intro kvs l hget
    simp [unwrapItems, unwrapValue, hget]
  · intro kvs s l hget
    simp [unwrapItems, unwrapValue, hget]
  · intro s l; rfl
  · intro v hnl
    unfold unwrapItems
    cases hv : unwrapValue v with
    | none => rfl
    | some w =>
      cases w with
      | jlist l => exact absurd hv (hnl l)
      | jnull => rfl
      | jbool b => rfl
      | jnum n => rfl
      | jstr s p => rfl
      | jdict kvs => rfl
  · intro env v hnone
    unfold mainModel
    rw [hnone]
  · intro env s; rfl

/-- Witness for C6: a wrapper dict whose `images_json` value is the
double-encoded empty list unwraps to the empty sequence, and an unwrapped
non-sequence value is fatal. -/
theorem C6_input_unwrapping_witness :
    unwrapItems (JVal.jdict [("images_json", JVal.jstr "[]" (some (JVal.jlist [])))])
      = some [] ∧
    unwrapItems (JVal.jnum 3) = none ∧
    mainModel env3 (JVal.jstr "[]" (some (JVal.jlist []))) = some [] :=
  ⟨C6_input_unwrapping.2.2.1 [("images_json", JVal.jstr "[]" (some (JVal.jlist [])))]
      "[]" [] rfl,
   C6_input_unwrapping.2.2.2.2.1 (JVal.jnum 3) (fun l h => by simp [unwrapValue] at h),
   C6_input_unwrapping.2.2.2.2.2.2 env3 "[]"⟩

/-! ### Locator theorems -/

theorem nbrs8_explicit (p : ℤ × ℤ) :
    nbrs8 p = [addp p (1, 0), addp p (1, 1), addp p (0, 1), addp p (-1, 1),
      addp p (-1, 0), addp p (-1, -1), addp p (0, -1), addp p (1, -1)] := rfl

theorem mem_expand_left {m : ℤ → ℤ → Bool} {s : List (ℤ × ℤ)} {q : ℤ × ℤ}
    (hq : q ∈ s) : q ∈ expand m s := by
  unfold expand
  rw [List.mem_dedup, List.mem_append]
  exact Or.inl hq

theorem mem_expand_of_nbr {m : ℤ → ℤ → Bool} {s : List (ℤ × ℤ)} {q r : ℤ × ℤ}
    (hq : q ∈ s) (hr : r ∈ nbrs8 q) (hm : m r.1 r.2 = true) : r ∈ expand m s := by
  unfold expand
  rw [List.mem_dedup, List.mem_append]
  refine Or.inr ?_
  rw [List.mem_filter]
  exact ⟨List.mem_flatMap.mpr ⟨q, hq, hr⟩, hm⟩

theorem expand_sound {m : ℤ → ℤ → Bool} {s : List (ℤ × ℤ)} {q : ℤ × ℤ}
    (hq : q ∈ expand m s) : q ∈ s ∨ m q.1 q.2 = true := by
  unfold expand at hq
  rw [List.mem_dedup, List.mem_append] at hq
  rcases hq with h | h
  · exact Or.inl h
  · exact Or.inr (List.mem_filter.mp h).2

theorem mem_compIter_of_mem {m : ℤ → ℤ → Bool} {q : ℤ × ℤ} :
    ∀ (f : Nat) (s : List (ℤ × ℤ)), q ∈ s → q ∈ compIter m f s := by
  intro f
  induction f with
  | zero => intro s hq; exact hq
  | succ f2 ih =>
    intro s hq
    unfold compIter
    by_cases hfix : expand m s = s
    · rw [if_pos hfix]; exact hq
    · rw [if_neg hfix]; exact ih (expand m s) (mem_expand_left hq)

theorem compIter_closed_step {m : ℤ → ℤ → Bool} {q r : ℤ × ℤ}
    (hr : r ∈ nbrs8 q) (hm : m r.1 r.2 = true) :
    ∀ (f : Nat) (s : List (ℤ × ℤ)), q ∈ compIter m f s → r ∈ compIter m (f + 1) s := by
  intro f
  induction f with
  | zero =>
    intro s hq
    unfold compIter
    by_cases hfix : expand m s = s
    · rw [if_pos hfix]
      have : r ∈ expand m s := mem_expand_of_nbr hq hr hm
      rwa [hfix] at this
    · rw [if_neg hfix]
      exact mem_expand_of_nbr hq hr hm
  | succ f2 ih =>
    intro s hq
    by_cases hfix : expand m s = s
    · have hq2 : q ∈ s := by
        unfold compIter at hq
        rwa [if_pos hfix] at hq
      show r ∈ compIter m (f2 + 1 + 1) s
      unfold compIter
      rw [if_pos hfix]
      have : r ∈ expand m s := mem_expand_of_nbr hq2 hr hm
      rwa [hfix] at this
    · have hq2 : q ∈ compIter m f2 (expand m s) := by
        unfold compIter at hq
        rwa [if_neg hfix] at hq
      have := ih (expand m s) hq2
      show r ∈ compIter m (f2 + 1 + 1) s
      unfold compIter
      rwa [if_neg hfix]

theorem compIter_sound {m : ℤ → ℤ → Bool} {q : ℤ × ℤ} :
    ∀ (f : Nat) (s : List (ℤ × ℤ)), q ∈ compIter m f s →
    q ∈ s ∨ m q.1 q.2 = true := by
  intro f
  induction f with
  | zero => intro s hq; exact Or.inl hq
  | succ f2 ih =>
    intro s hq
    unfold compIter at hq
    by_cases hfix : expand m s = s
    · rw [if_pos hfix] at hq; exact Or.inl hq
    · rw [if_neg hfix] at hq
      rcases ih (expand m s) hq with h | h
      · exact expand_sound h
      · exact Or.inr h

/-- `n`-step 8-connected reachability inside the mask (the start pixel is not
required to satisfy the mask; every later pixel is). -/
inductive ReachN (m : ℤ → ℤ → Bool) : Nat → (ℤ × ℤ) → (ℤ × ℤ) → Prop where
  | refl (p : ℤ × ℤ) : ReachN m 0 p p
  | step {n : Nat} {p q r : ℤ × ℤ} : ReachN m n p q → r ∈ nbrs8 q →
      m r.1 r.2 = true → ReachN m (n + 1) p r

theorem ReachN.mem_compList {m : ℤ → ℤ → Bool} {n : Nat} {p q : ℤ × ℤ}
    (hr : ReachN m n p q) : ∀ f, n ≤ f → q ∈ compList m f p := by
  induction hr with
  | refl p => intro f _; exact mem_compIter_of_mem f [p] (List.mem_singleton_self p)
  | step hr2 hnb hm ih =>
    intro f hf
    rcases f with _ | f2
    · omega
    · have := ih f2 (by omega)
      exact compIter_closed_step hnb hm f2 [_] this

theorem ReachN.trans {m : ℤ → ℤ → Bool} {a b : Nat} {p q r : ℤ × ℤ}
    (h1 : ReachN m a p q) (h2 : ReachN m b q r) : ReachN m (a + b) p r := by
  induction h2 with
  | refl _ => exact h1
  | step h2b hnb hm ih => exact ReachN.step (ih h1) hnb hm

/-- A mask whose flagged pixels form exactly the solid rectangle
`[x, x+w) x [y, y+h)`. -/
def rectMask (x y w h : ℤ) : ℤ → ℤ → Bool := fun a b =>
  decide (x ≤ a ∧ a < x + w ∧ y ≤ b ∧ b < y + h)

/-- A `W` x `H` 4-channel foreground whose alpha is 0 exactly on the solid
rectangle `[x, x+w) x [y, y+h)` and 255 elsewhere (a single rectangular
transparent hole). -/
def rectImg (W H x y w h : Nat) : Img :=
  { h := H, w := W, ch := 4,
    pix := fun j i c =>
      if c = 3 then (if x ≤ i ∧ i < x + w ∧ y ≤ j ∧ j < y + h then 0 else 255)
      else 100 }

theorem alphaMask_rectImg (W H x y w h : Nat)
    (hxw : x + w ≤ W) (hyh : y + h ≤ H) :
    alphaMask (rectImg W H x y w h) =
      rectMask (x : ℤ) (y : ℤ) (w : ℤ) (h : ℤ) := by
  funext a b
  simp only [alphaMask, rectImg, rectMask, if_pos rfl]
  by_cases hb : 0 ≤ a ∧ a < ((W : Nat) : ℤ) ∧ 0 ≤ b ∧ b < ((H : Nat) : ℤ)
  · rw [decide_eq_true hb, Bool.true_and]
    by_cases hr : (x : ℤ) ≤ a ∧ a < (x : ℤ) + w ∧ (y : ℤ) ≤ b ∧ b < (y : ℤ) + h
    · have hrn : x ≤ a.toNat ∧ a.toNat < x + w ∧ y ≤ b.toNat ∧ b.toNat < y + h := by
        omega
      rw [if_pos hrn, decide_eq_true hr]
      decide
    · have hrn : ¬ (x ≤ a.toNat ∧ a.toNat < x + w ∧ y ≤ b.toNat ∧ b.toNat < y + h) := by
        omega
      rw [if_neg hrn, decide_eq_false hr]
      decide
  · rw [decide_eq_false hb, Bool.false_and]
    have hr : ¬ ((x : ℤ) ≤ a ∧ a < (x : ℤ) + w ∧ (y : ℤ) ≤ b ∧ b < (y : ℤ) + h) := by
      omega
    rw [decide_eq_false hr]

theorem reach_horiz {m : ℤ → ℤ → Bool} {a b d : ℤ} (hd : d = 1 ∨ d = -1) :
    ∀ k : Nat, (∀ j : Nat, j ≤ k → m (a + d * j) b = true) →
    ReachN m k (a, b) (a + d * k, b) := by
  intro k
  induction k with
  | zero => intro _; simpa using ReachN.refl (a, b)
  | succ k2 ih =>
    intro hall
    have hprev : ReachN m k2 (a, b) (a + d * k2, b) :=
      ih (fun j hj => hall j (by omega))
    have hmem : (a + d * (k2 + 1 : Nat), b) ∈ nbrs8 (a + d * k2, b) := by
      rw [nbrs8_explicit]
      rcases hd with h1 | h1 <;>
      · subst h1
        push_cast
        simp only [addp, List.mem_cons]
        norm_num
        omega
    have hm : m (a + d * (k2 + 1 : Nat)) b = true := hall (k2 + 1) (by omega)
    exact ReachN.step hprev hmem hm

theorem reach_vert {m : ℤ → ℤ → Bool} {a b d : ℤ} (hd : d = 1 ∨ d = -1) :
    ∀ k : Nat, (∀ j : Nat, j ≤ k → m a (b + d * j) = true) →
    ReachN m k (a, b) (a, b + d * k) := by
  intro k
  induction k with
  | zero => intro _; simpa using ReachN.refl (a, b)
  | succ k2 ih =>
    intro hall
    have hprev : ReachN m k2 (a, b) (a, b + d * k2) :=
      ih (fun j hj => hall j (by omega))
    have hmem : (a, b + d * (k2 + 1 : Nat)) ∈ nbrs8 (a, b + d * k2) := by
      rw [nbrs8_explicit]
      rcases hd with h1 | h1 <;>
      · subst h1
        push_cast
        simp only [addp, List.mem_cons]
        norm_num
        omega
    have hm : m a (b + d * (k2 + 1 : Nat)) = true := hall (k2 + 1) (by omega)
    exact ReachN.step hprev hmem hm

theorem rect_reach_vert {x y w h a b1 b2 : ℤ}
    (ha : x ≤ a ∧ a < x + w) (hb1 : y ≤ b1 ∧ b1 < y + h)
    (hb2 : y ≤ b2 ∧ b2 < y + h) :
    ReachN (rectMask x y w h) (b2 - b1).natAbs (a, b1) (a, b2) := by
  rcases le_or_lt b1 b2 with hle | hlt
  · have hall : ∀ j : Nat, j ≤ (b2 - b1).natAbs →
        rectMask x y w h a (b1 + 1 * j) = true := by
      intro j hj
      simp only [rectMask, decide_eq_true_eq]
      omega
    have hr := reach_vert (m := rectMask x y w h) (a := a) (b := b1)
      (Or.inl rfl) (b2 - b1).natAbs hall
    have hend : b1 + 1 * ((b2 - b1).natAbs : ℤ) = b2 := by omega
    rwa [hend] at hr
  · have hall : ∀ j : Nat, j ≤ (b2 - b1).natAbs →
        rectMask x y w h a (b1 + (-1) * j) = true := by
      intro j hj
      simp only [rectMask, decide_eq_true_eq]
      omega
    have hr := reach_vert (m := rectMask x y w h) (a := a) (b := b1)
      (Or.inr rfl) (b2 - b1).natAbs hall
    have hend : b1 + (-1) * ((b2 - b1).natAbs : ℤ) = b2 := by omega
    rwa [hend] at hr

theorem rect_reach_horiz {x y w h a1 a2 b : ℤ}
    (hb : y ≤ b ∧ b < y + h) (ha1 : x ≤ a1 ∧ a1 < x + w)
    (ha2 : x ≤ a2 ∧ a2 < x + w) :
    ReachN (rectMask x y w h) (a2 - a1).natAbs (a1, b) (a2, b) := by
  rcases le_or_lt a1 a2 with hle | hlt
  · have hall : ∀ j : Nat, j ≤ (a2 - a1).natAbs →
        rectMask x y w h (a1 + 1 * j) b = true := by
      intro j hj
      simp only [rectMask, decide_eq_true_eq]
      omega
    have hr := reach_horiz (m := rectMask x y w h) (a := a1) (b := b)
      (Or.inl rfl) (a2 - a1).natAbs hall
    have hend : a1 + 1 * ((a2 - a1).natAbs : ℤ) = a2 := by omega
    rwa [hend] at hr
  · have hall : ∀ j : Nat, j ≤ (a2 - a1).natAbs →
        rectMask x y w h (a1 + (-1) * j) b = true := by
      intro j hj
      simp only [rectMask, decide_eq_true_eq]
      omega
    have hr := reach_horiz (m := rectMask x y w h) (a := a1) (b := b)
      (Or.inr rfl) (a2 - a1).natAbs hall
    have hend : a1 + (-1) * ((a2 - a1).natAbs : ℤ) = a2 := by omega
    rwa [hend] at hr

theorem rect_reach {x y w h : ℤ} {p q : ℤ × ℤ}
    (hp : rectMask x y w h p.1 p.2 = true) (hq : rectMask x y w h q.1 q.2 = true) :
    ∃ n : Nat, (n : ℤ) ≤ (w - 1) + (h - 1) ∧ ReachN (rectMask x y w h) n p q := by
  simp only [rectMask, decide_eq_true_eq] at hp hq
  refine ⟨(q.2 - p.2).natAbs + (q.1 - p.1).natAbs, by omega, ?_⟩
  have h1 : ReachN (rectMask x y w h) (q.2 - p.2).natAbs (p.1, p.2) (p.1, q.2) :=
    rect_reach_vert ⟨hp.1, hp.2.1⟩ ⟨hp.2.2.1, hp.2.2.2⟩ ⟨hq.2.2.1, hq.2.2.2⟩
  have h2 : ReachN (rectMask x y w h) (q.1 - p.1).natAbs (p.1, q.2) (q.1, q.2) :=
    rect_reach_horiz ⟨hq.2.2.1, hq.2.2.2⟩ ⟨hp.1, hp.2.1⟩ ⟨hq.1, hq.2.1⟩
  have := ReachN.trans h1 h2
  simpa using this

theorem rect_fuel_bound {W H x y w h : Nat} (hw : 0 < w) (hh : 0 < h)
    (hxw : x + w ≤ W) (hyh : y + h ≤ H) :
    ((w : ℤ) - 1) + ((h : ℤ) - 1) ≤ (W : ℤ) * H - 1 := by
  have h1 : (1 : ℤ) ≤ W := by omega
  have h2 : (1 : ℤ) ≤ H := by omega
  have h3 : (0 : ℤ) ≤ ((W : ℤ) - 1) * ((H : ℤ) - 1) := by
    apply mul_nonneg <;> omega
  have h4 : (w : ℤ) ≤ W := by omega
  have h5 : (h : ℤ) ≤ H := by omega
  nlinarith

theorem mem_compList_rect {W H x y w h : Nat} (hw : 0 < w) (hh : 0 < h)
    (hxw : x + w ≤ W) (hyh : y + h ≤ H) {p q : ℤ × ℤ}
    (hp : rectMask (x : ℤ) (y : ℤ) (w : ℤ) (h : ℤ) p.1 p.2 = true) :
    q ∈ compList (rectMask (x : ℤ) (y : ℤ) (w : ℤ) (h : ℤ)) (W * H) p ↔
      rectMask (x : ℤ) (y : ℤ) (w : ℤ) (h : ℤ) q.1 q.2 = true := by
  constructor
  · intro hq
    rcases compIter_sound (W * H) [p] hq with hmem | hmask
    · rw [List.mem_singleton] at hmem
      rw [hmem]
      exact hp
    · exact hmask
  · intro hq
    obtain ⟨n, hn, hreach⟩ := rect_reach hp hq
    refine hreach.mem_compList (W * H) ?_
    have := rect_fuel_bound hw hh hxw hyh
    omega

theorem mem_gridPts {W H : Nat} {p : ℤ × ℤ} :
    p ∈ gridPts W H ↔ 0 ≤ p.1 ∧ p.1 < W ∧ 0 ≤ p.2 ∧ p.2 < H := by
  rcases p with ⟨a, b⟩
  unfold gridPts
  rw [List.mem_flatMap]
  constructor
  · rintro ⟨j, hj, hmem⟩
    rw [List.mem_range] at hj
    rw [List.mem_map] at hmem
    obtain ⟨i, hi, heq⟩ := hmem
    rw [List.mem_range] at hi
    rw [Prod.mk.injEq] at heq
    obtain ⟨h1, h2⟩ := heq
    simp only [← h1, ← h2, Int.ofNat_eq_coe]
    omega
  · rintro ⟨h1, h2, h3, h4⟩
    simp only at h1 h2 h3 h4
    refine ⟨b.toNat, ?_, ?_⟩
    · rw [List.mem_range]; omega
    · rw [List.mem_map]
      refine ⟨a.toNat, ?_, ?_⟩
      · rw [List.mem_range]; omega
      · rw [Prod.mk.injEq]
        constructor <;> · simp only [Int.ofNat_eq_coe]; omega

theorem gridPts_nodup (W H : Nat) : (gridPts W H).Nodup := by
  unfold gridPts
  rw [List.nodup_flatMap]
  constructor
  · intro j _
    refine List.Nodup.map ?_ (List.nodup_range W)
    intro i1 i2 hi
    rw [Prod.mk.injEq] at hi
    have h2 := hi.1
    simp only [Int.ofNat_eq_coe] at h2
    exact_mod_cast h2
  · rw [List.pairwise_iff_forall_sublist]
    intro j1 j2 hsub
    have hne : j1 ≠ j2 := by
      intro h
      subst h
      have := List.Sublist.nodup hsub (List.nodup_range H)
      simp at this
    intro p hp1 hp2
    rw [List.mem_map] at hp1 hp2
    obtain ⟨i1, _, he1⟩ := hp1
    obtain ⟨i2, _, he2⟩ := hp2
    rw [Prod.mk.injEq] at he1 he2
    have h12 : (Int.ofNat j1) = Int.ofNat j2 := by
      rw [he1.2, he2.2]
    simp only [Int.ofNat_eq_coe] at h12
    exact hne (by exact_mod_cast h12)

theorem filter_eq_singleton {α : Type} {l : List α} {p : α → Bool} {a : α}
    (hnd : l.Nodup) (ha : a ∈ l) (hpa : p a = true)
    (huniq : ∀ b ∈ l, p b = true → b = a) : l.filter p = [a] := by
  induction l with
  | nil => simp at ha
  | cons c t ih =>
    rw [List.nodup_cons] at hnd
    rcases List.mem_cons.mp ha with hac | hat
    · subst hac
      rw [List.filter_cons, if_pos hpa]
      have hnone : ∀ b ∈ t, ¬ (p b = true) := by
        intro b hb hpb
        have := huniq b (List.mem_cons_of_mem a hb) hpb
        subst this
        exact hnd.1 hb
      have : t.filter p = [] := List.filter_eq_nil_iff.mpr hnone
      rw [this]
    · have hca : c ≠ a := by
        intro h
        subst h
        exact hnd.1 hat
      have hpc : ¬ (p c = true) := by
        intro hpc
        exact hca (huniq c (List.mem_cons_self c t) hpc)
      rw [List.filter_cons, if_neg hpc]
      exact ih hnd.2 hat (fun b hb hpb => huniq b (List.mem_cons_of_mem c hb) hpb)

theorem rasterIdx_rect_min {W x y w h : Nat} (hxw : x + w ≤ W) (hw : 0 < w)
    {q : ℤ × ℤ} (hq : rectMask (x : ℤ) (y : ℤ) (w : ℤ) (h : ℤ) q.1 q.2 = true) :
    rasterIdx W (Int.ofNat x, Int.ofNat y) ≤ rasterIdx W q := by
  simp only [rectMask, decide_eq_true_eq] at hq
  unfold rasterIdx
  simp only [Int.ofNat_eq_coe]
  have hWnn : (0 : ℤ) ≤ (W : ℤ) := by omega
  rcases eq_or_lt_of_le hq.2.2.1 with heq | hlt
  · rw [← heq]
    have : (x : ℤ) ≤ q.1 := hq.1
    linarith
  · have h1 : ((y : ℤ) + 1) * W ≤ q.2 * W :=
      mul_le_mul_of_nonneg_right (by omega) hWnn
    have h2 : (x : ℤ) < (W : ℤ) := by omega
    have h3 : (0 : ℤ) ≤ q.1 := by
      have := hq.1
      omega
    nlinarith

theorem rasterIdx_inj_grid {W : Nat} {p q : ℤ × ℤ}
    (hp : 0 ≤ p.1 ∧ p.1 < W) (hq : 0 ≤ q.1 ∧ q.1 < W)
    (heq : rasterIdx W p = rasterIdx W q) : p = q := by
  unfold rasterIdx at heq
  have hWnn : (0 : ℤ) ≤ (W : ℤ) := by omega
  have hy : p.2 = q.2 := by
    rcases lt_trichotomy p.2 q.2 with hlt | he | hgt
    · exfalso
      have h1 : (p.2 + 1) * W ≤ q.2 * W :=
        mul_le_mul_of_nonneg_right (by omega) hWnn
      nlinarith
    · exact he
    · exfalso
      have h1 : (q.2 + 1) * W ≤ p.2 * W :=
        mul_le_mul_of_nonneg_right (by omega) hWnn
      nlinarith
  have hx : p.1 = q.1 := by
    rw [hy] at heq
    linarith
  exact Prod.ext hx hy

theorem startPts_rect {W H x y w h : Nat} (hw : 0 < w) (hh : 0 < h)
    (hxw : x + w ≤ W) (hyh : y + h ≤ H) :
    startPts (rectMask (x : ℤ) (y : ℤ) (w : ℤ) (h : ℤ)) W H =
      [(Int.ofNat x, Int.ofNat y)] := by
  have hcorner : rectMask (x : ℤ) (y : ℤ) (w : ℤ) (h : ℤ)
      (Int.ofNat x, Int.ofNat y).1 (Int.ofNat x, Int.ofNat y).2 = true := by
    simp only [rectMask, Int.ofNat_eq_coe, decide_eq_true_eq]
    omega
  apply filter_eq_singleton (gridPts_nodup W H)
  · rw [mem_gridPts]
    simp only [Int.ofNat_eq_coe]
    omega
  · rw [Bool.and_eq_true]
    refine ⟨hcorner, ?_⟩
    rw [List.all_eq_true]
    intro q hqmem
    have hq := (mem_compList_rect hw hh hxw hyh hcorner).mp hqmem
    exact decide_eq_true (rasterIdx_rect_min hxw hw hq)
  · intro b hbg hbp
    rw [Bool.and_eq_true] at hbp
    obtain ⟨hbm, hball⟩ := hbp
    rw [List.all_eq_true] at hball
    have hcm : (Int.ofNat x, Int.ofNat y) ∈
        compList (rectMask (x : ℤ) (y : ℤ) (w : ℤ) (h : ℤ)) (W * H) b :=
      (mem_compList_rect hw hh hxw hyh hbm).mpr hcorner
    have hle1 := decide_eq_true_eq.mp (hball _ hcm)
    have hle2 := rasterIdx_rect_min (h := h) (y := y) hxw hw hbm
    have hbnds : 0 ≤ b.1 ∧ b.1 < W := by
      simp only [rectMask, decide_eq_true_eq] at hbm
      omega
    exact rasterIdx_inj_grid hbnds (by simp only [Int.ofNat_eq_coe]; omega)
      (le_antisymm hle1 hle2)

theorem foldl_min_prop {α : Type} (f : α → ℤ) :
    ∀ (t : List α) (a : ℤ),
    (t.foldl (fun acc q => min acc (f q)) a ≤ a) ∧
    (∀ q ∈ t, t.foldl (fun acc q => min acc (f q)) a ≤ f q) ∧
    (t.foldl (fun acc q => min acc (f q)) a = a ∨
      ∃ q ∈ t, f q = t.foldl (fun acc q => min acc (f q)) a) := by
  intro t
  induction t with
  | nil => intro a; refine ⟨le_refl a, by simp, Or.inl rfl⟩
  | cons b t2 ih =>
    intro a
    rw [List.foldl_cons]
    obtain ⟨ih1, ih2, ih3⟩ := ih (min a (f b))
    refine ⟨le_trans ih1 (min_le_left a (f b)), ?_, ?_⟩
    · intro q hq
      rcases List.mem_cons.mp hq with hqb | hqt
      · rw [hqb]
        exact le_trans ih1 (min_le_right a (f b))
      · exact ih2 q hqt
    · rcases ih3 with he | ⟨q, hq, he⟩
      · rcases le_total a (f b) with hab | hab
        · exact Or.inl (he.trans (min_eq_left hab))
        · exact Or.inr ⟨b, List.mem_cons_self b t2, (he.trans (min_eq_right hab)).symm⟩
      · exact Or.inr ⟨q, List.mem_cons_of_mem b hq, he⟩

theorem foldl_max_prop {α : Type} (f : α → ℤ) :
    ∀ (t : List α) (a : ℤ),
    (a ≤ t.foldl (fun acc q => max acc (f q)) a) ∧
    (∀ q ∈ t, f q ≤ t.foldl (fun acc q => max acc (f q)) a) ∧
    (t.foldl (fun acc q => max acc (f q)) a = a ∨
      ∃ q ∈ t, f q = t.foldl (fun acc q => max acc (f q)) a) := by
  intro t
  induction t with
  | nil => intro a; refine ⟨le_refl a, by simp, Or.inl rfl⟩
  | cons b t2 ih =>
    intro a
    rw [List.foldl_cons]
    obtain ⟨ih1, ih2, ih3⟩ := ih (max a (f b))
    refine ⟨le_trans (le_max_left a (f b)) ih1, ?_, ?_⟩
    · intro q hq
      rcases List.mem_cons.mp hq with hqb | hqt
      · rw [hqb]
        exact le_trans (le_max_right a (f b)) ih1
      · exact ih2 q hqt
    · rcases ih3 with he | ⟨q, hq, he⟩
      · rcases le_total a (f b) with hab | hab
        · exact Or.inr ⟨b, List.mem_cons_self b t2, (he.trans (max_eq_right hab)).symm⟩
        · exact Or.inl (he.trans (max_eq_left hab))
      · exact Or.inr ⟨q, List.mem_cons_of_mem b hq, he⟩

theorem lminX_eq {l : List (ℤ × ℤ)} {v : ℤ} (hlb : ∀ q ∈ l, v ≤ q.1)
    (hmem : ∃ q ∈ l, q.1 = v) : lminX l = v := by
  obtain ⟨q0, hq0, he0⟩ := hmem
  rcases l with _ | ⟨a, t⟩
  · simp at hq0
  · show t.foldl (fun acc q => min acc q.1) a.1 = v
    obtain ⟨h1, h2, h3⟩ := foldl_min_prop (fun q : ℤ × ℤ => q.1) t a.1
    refine le_antisymm ?_ ?_
    · rcases List.mem_cons.mp hq0 with hb | ht
      · rw [← he0, hb]; exact h1
      · rw [← he0]; exact h2 q0 ht
    · rcases h3 with he | ⟨q, hq, he⟩
      · rw [he]; exact hlb a (List.mem_cons_self a t)
      · rw [← he]; exact hlb q (List.mem_cons_of_mem a hq)

theorem lminY_eq {l : List (ℤ × ℤ)} {v : ℤ} (hlb : ∀ q ∈ l, v ≤ q.2)
    (hmem : ∃ q ∈ l, q.2 = v) : lminY l = v := by
  obtain ⟨q0, hq0, he0⟩ := hmem
  rcases l with _ | ⟨a, t⟩
  · simp at hq0
  · show t.foldl (fun acc q => min acc q.2) a.2 = v
    obtain ⟨h1, h2, h3⟩ := foldl_min_prop (fun q : ℤ × ℤ => q.2) t a.2
    refine le_antisymm ?_ ?_
    · rcases List.mem_cons.mp hq0 with hb | ht
      · rw [← he0, hb]; exact h1
      · rw [← he0]; exact h2 q0 ht
    · rcases h3 with he | ⟨q, hq, he⟩
      · rw [he]; exact hlb a (List.mem_cons_self a t)
      · rw [← he]; exact hlb q (List.mem_cons_of_mem a hq)

theorem lmaxX_eq {l : List (ℤ × ℤ)} {v : ℤ} (hub : ∀ q ∈ l, q.1 ≤ v)
    (hmem : ∃ q ∈ l, q.1 = v) : lmaxX l = v := by
  obtain ⟨q0, hq0, he0⟩ := hmem
  rcases l with _ | ⟨a, t⟩
  · simp at hq0
  · show t.foldl (fun acc q => max acc q.1) a.1 = v
    obtain ⟨h1, h2, h3⟩ := foldl_max_prop (fun q : ℤ × ℤ => q.1) t a.1
    refine le_antisymm ?_ ?_
    · rcases h3 with he | ⟨q, hq, he⟩
      · rw [he]; exact hub a (List.mem_cons_self a t)
      · rw [← he]; exact hub q (List.mem_cons_of_mem a hq)
    · rcases List.mem_cons.mp hq0 with hb | ht
      · rw [← he0, hb]; exact h1
      · rw [← he0]; exact h2 q0 ht

theorem lmaxY_eq {l : List (ℤ × ℤ)} {v : ℤ} (hub : ∀ q ∈ l, q.2 ≤ v)
    (hmem : ∃ q ∈ l, q.2 = v) : lmaxY l = v := by
  obtain ⟨q0, hq0, he0⟩ := hmem
  rcases l with _ | ⟨a, t⟩
  · simp at hq0
  · show t.foldl (fun acc q => max acc q.2) a.2 = v
    obtain ⟨h1, h2, h3⟩ := foldl_max_prop (fun q : ℤ × ℤ => q.2) t a.2
    refine le_antisymm ?_ ?_
    · rcases h3 with he | ⟨q, hq, he⟩
      · rw [he]; exact hub a (List.mem_cons_self a t)
      · rw [← he]; exact hub q (List.mem_cons_of_mem a hq)
    · rcases List.mem_cons.mp hq0 with hb | ht
      · rw [← he0, hb]; exact h1
      · rw [← he0]; exact h2 q0 ht

theorem compBBox_rect {W H x y w h : Nat} (hw : 0 < w) (hh : 0 < h)
    (hxw : x + w ≤ W) (hyh : y + h ≤ H) :
    compBBox (rectMask (x : ℤ) (y : ℤ) (w : ℤ) (h : ℤ)) (W * H)
      (Int.ofNat x, Int.ofNat y) = ((x : ℤ), (y : ℤ), (w : ℤ), (h : ℤ)) := by
  have hcorner : rectMask (x : ℤ) (y : ℤ) (w : ℤ) (h : ℤ)
      (Int.ofNat x, Int.ofNat y).1 (Int.ofNat x, Int.ofNat y).2 = true := by
    simp only [rectMask, Int.ofNat_eq_coe, decide_eq_true_eq]
    omega
  have hmem : ∀ q : ℤ × ℤ, q ∈ compList (rectMask (x : ℤ) (y : ℤ) (w : ℤ) (h : ℤ))
      (W * H) (Int.ofNat x, Int.ofNat y) ↔
      ((x : ℤ) ≤ q.1 ∧ q.1 < (x : ℤ) + w ∧ (y : ℤ) ≤ q.2 ∧ q.2 < (y : ℤ) + h) := by
    intro q
    rw [mem_compList_rect hw hh hxw hyh hcorner]
    simp only [rectMask, decide_eq_true_eq]
  have hin : ∀ (a b : ℤ), (x : ℤ) ≤ a → a < (x : ℤ) + w → (y : ℤ) ≤ b →
      b < (y : ℤ) + h →
      (a, b) ∈ compList (rectMask (x : ℤ) (y : ℤ) (w : ℤ) (h : ℤ)) (W * H)
        (Int.ofNat x, Int.ofNat y) := by
    intro a b h1 h2 h3 h4
    rw [hmem (a, b)]
    exact ⟨h1, h2, h3, h4⟩
  have hminx : lminX (compList (rectMask (x : ℤ) (y : ℤ) (w : ℤ) (h : ℤ)) (W * H)
      (Int.ofNat x, Int.ofNat y)) = (x : ℤ) :=
    lminX_eq (fun q hq => ((hmem q).mp hq).1)
      ⟨((x : ℤ), (y : ℤ)), hin x y (le_refl _) (by omega) (le_refl _) (by omega), rfl⟩
  have hminy : lminY (compList (rectMask (x : ℤ) (y : ℤ) (w : ℤ) (h : ℤ)) (W * H)
      (Int.ofNat x, Int.ofNat y)) = (y : ℤ) :=
    lminY_eq (fun q hq => ((hmem q).mp hq).2.2.1)
      ⟨((x : ℤ), (y : ℤ)), hin x y (le_refl _) (by omega) (le_refl _) (by omega), rfl⟩
  have hmaxx : lmaxX (compList (rectMask (x : ℤ) (y : ℤ) (w : ℤ) (h : ℤ)) (W * H)
      (Int.ofNat x, Int.ofNat y)) = (x : ℤ) + w - 1 :=
    lmaxX_eq (fun q hq => by have := ((hmem q).mp hq).2.1; omega)
      ⟨((x : ℤ) + w - 1, (y : ℤ)),
        hin ((x : ℤ) + w - 1) y (by omega) (by omega) (le_refl _) (by omega), rfl⟩
  have hmaxy : lmaxY (compList (rectMask (x : ℤ) (y : ℤ) (w : ℤ) (h : ℤ)) (W * H)
      (Int.ofNat x, Int.ofNat y)) = (y : ℤ) + h - 1 :=
    lmaxY_eq (fun q hq => by have := ((hmem q).mp hq).2.2.2; omega)
      ⟨((x : ℤ), (y : ℤ) + h - 1),
        hin x ((y : ℤ) + h - 1) (le_refl _) (by omega) (by omega) (by omega), rfl⟩
  simp only [compBBox, hminx, hminy, hmaxx, hmaxy]
  refine Prod.ext rfl (Prod.ext rfl (Prod.ext ?_ ?_)) <;> · simp only; ring

/-- The locator on a foreground whose non-opaque pixels form a single solid
rectangle `(x, y, w, h)` (fully inside the image) returns exactly that box. -/
theorem locate_rect (W H x y w h : Nat) (hw : 0 < w) (hh : 0 < h)
    (hxw : x + w ≤ W) (hyh : y + h ≤ H) :
    locate (rectImg W H x y w h) = some ((x : ℤ), (y : ℤ), (w : ℤ), (h : ℤ)) := by
  have hmask : alphaMask (rectImg W H x y w h) =
      rectMask (x : ℤ) (y : ℤ) (w : ℤ) (h : ℤ) :=
    alphaMask_rectImg W H x y w h hxw hyh
  simp only [locate, hmask, show (rectImg W H x y w h).w = W from rfl,
    show (rectImg W H x y w h).h = H from rfl]
  rw [startPts_rect hw hh hxw hyh]
  simp only [pyMaxBy, List.foldl_nil]
  rw [compBBox_rect hw hh hxw hyh]

theorem pyFold_spec {α : Type} (k : α → Nat) :
    ∀ (t : List α) (a : α),
    (t.foldl (fun best x => if k best < k x then x else best) a = a ∨
      t.foldl (fun best x => if k best < k x then x else best) a ∈ t) ∧
    k a ≤ k (t.foldl (fun best x => if k best < k x then x else best) a) ∧
    (∀ b ∈ t, k b ≤ k (t.foldl (fun best x => if k best < k x then x else best) a)) := by
  intro t
  induction t with
  | nil => intro a; exact ⟨Or.inl rfl, le_refl _, by simp⟩
  | cons b t2 ih =>
    intro a
    rw [List.foldl_cons]
    obtain ⟨ih1, ih2, ih3⟩ := ih (if k a < k b then b else a)
    have hstep : k a ≤ k (if k a < k b then b else a) ∧
        k b ≤ k (if k a < k b then b else a) ∨
        (¬ k a < k b) ∧ (if k a < k b then b else a) = a := by
      by_cases hab : k a < k b
      · rw [if_pos hab]
        exact Or.inl ⟨Nat.le_of_lt hab, le_refl _⟩
      · rw [if_neg hab]
        exact Or.inr ⟨hab, rfl⟩
    refine ⟨?_, ?_, ?_⟩
    · rcases ih1 with he | hm
      · rw [he]
        by_cases hab : k a < k b
        · rw [if_pos hab]
          exact Or.inr (List.mem_cons_self b t2)
        · rw [if_neg hab]
          exact Or.inl rfl
      · exact Or.inr (List.mem_cons_of_mem b hm)
    · rcases hstep with ⟨h1, _⟩ | ⟨_, he⟩
      · exact le_trans h1 ih2
      · exact le_trans (le_of_eq (congrArg k he.symm)) ih2
    · intro c hc
      rcases List.mem_cons.mp hc with hcb | hct
      · subst hcb
        rcases hstep with ⟨_, h2⟩ | ⟨hnlt, he⟩
        · exact le_trans h2 ih2
        · exact le_trans (Nat.le_of_not_lt hnlt)
            (le_trans (le_of_eq (congrArg k he.symm)) ih2)
      · exact ih3 c hct

theorem pyMaxBy_spec {α : Type} (k : α → Nat) (a : α) (t : List α) :
    ∃ s, s ∈ a :: t ∧ pyMaxBy k (a :: t) = some s ∧ ∀ b ∈ a :: t, k b ≤ k s := by
  obtain ⟨h1, h2, h3⟩ := pyFold_spec k t a
  refine ⟨t.foldl (fun best x => if k best < k x then x else best) a, ?_, rfl, ?_⟩
  · rcases h1 with he | hm
    · rw [he]; exact List.mem_cons_self a t
    · exact List.mem_cons_of_mem a hm
  · intro b hb
    rcases List.mem_cons.mp hb with hba | hbt
    · subst hba; exact h2
    · exact h3 b hbt

/-- **C1 (amended).** For every foreground whose transparent mask is nonempty
(the start-pixel list of the external contours is nonempty), the locator
returns the bounding box of the pixel set of a connected component whose
**contour-enclosed area** — `cv2.contourArea`, the shoelace area of the
traced external boundary polygon through pixel centres — is maximal among
all components.  This area measure is NOT the component's pixel count: it
undercounts thin regions (a 1-pixel-thick line has contour area 0), which is
what the counterexample exhibits.  In particular, on a foreground whose
non-opaque pixels form a single solid rectangle `(x, y, w, h)` the locator
returns exactly that box. -/
theorem C1_locator_selects_max_contour_area :
    (∀ (img : Img) (s0 : ℤ × ℤ) (t0 : List (ℤ × ℤ)),
      startPts (alphaMask img) img.w img.h = s0 :: t0 →
      ∃ s, s ∈ startPts (alphaMask img) img.w img.h ∧
        locate img = some (compBBox (alphaMask img) (img.w * img.h) s) ∧
        ∀ s2 ∈ startPts (alphaMask img) img.w img.h,
          cvContourArea2 (traceContour (alphaMask img) (8 * (img.w * img.h) + 8) s2) ≤
          cvContourArea2 (traceContour (alphaMask img) (8 * (img.w * img.h) + 8) s)) ∧
    (∀ W H x y w h : Nat, 0 < w → 0 < h → x + w ≤ W → y + h ≤ H →
      locate (rectImg W H x y w h) = some ((x : ℤ), (y : ℤ), (w : ℤ), (h : ℤ))) := by
  constructor
  · intro img s0 t0 hst
    obtain ⟨s, hsmem, hpy, hmax⟩ := pyMaxBy_spec
      (fun s => cvContourArea2 (traceContour (alphaMask img) (8 * (img.w * img.h) + 8) s))
      s0 t0
    refine ⟨s, ?_, ?_, ?_⟩
    · rw [hst]; exact hsmem
    · simp only [locate]
      rw [hst, hpy]
    · intro s2 hs2
      rw [hst] at hs2
      exact hmax s2 hs2
  · exact locate_rect

/-- Witness for C1 (amended): a 4x4 foreground with a single 2x2 transparent
hole at (1, 1). -/
theorem C1_locator_selects_max_contour_area_witness :
    (0 : Nat) < 2 ∧ locate (rectImg 4 4 1 1 2 2) = some (1, 1, 2, 2) :=
  ⟨by decide,
   C1_locator_selects_max_contour_area.2 4 4 1 1 2 2
     (by decide) (by decide) (by decide) (by decide)⟩

/-- **C1 (counterexample).** The claim "the locator selects the component
enclosing the greatest *pixel area*" is false on `fgC1`: the 1-pixel-thick
line component at row 0 has 5 pixels (bounding box `(0, 0, 5, 1)`) and the
square component has only 4, so the pixel-area selector (`specLocate`,
stated from the spec's words) returns the line's box — but the code keys on
`cv2.contourArea`, the shoelace area of the traced boundary (0 for the line,
1 for the square), and returns the square's box `(0, 2, 2, 2)`. -/
theorem C1_locator_counterexample :
    locate fgC1 = some (0, 2, 2, 2) ∧
    specLocate fgC1 = some (0, 0, 5, 1) ∧
    (compList (alphaMask fgC1) (fgC1.w * fgC1.h) (0, 0)).length = 5 ∧
    (compList (alphaMask fgC1) (fgC1.w * fgC1.h) (0, 2)).length = 4 ∧
    locate fgC1 ≠ specLocate fgC1 := by
  refine ⟨by decide, by decide, by decide, by decide, ?_⟩
  intro hcontra
  have h1 : locate fgC1 = some (0, 2, 2, 2) := by decide
  have h2 : specLocate fgC1 = some (0, 0, 5, 1) := by decide
  rw [h1, h2] at hcontra
  simp at hcontra

/-- **C3 (amended).** For every successfully processed pair, every output
pixel outside the located bounding box **at which the foreground is fully
opaque** equals the foreground's RGB value there (the black canvas is
invisible wherever alpha = 255).  When the foreground has several transparent
components, pixels of the smaller components lie outside the box and are not
opaque, and the claim's "fully opaque outside the box" premise fails — see
the counterexample. -/
theorem C3_outside_box_shows_foreground (fg ad : Img) (x y w h : ℤ)
    (px py c : Nat) (hch : fg.ch = 4) (hloc : locate fg = some (x, y, w, h))
    (hout : ¬ (x ≤ (px : ℤ) ∧ (px : ℤ) < x + w ∧ y ≤ (py : ℤ) ∧ (py : ℤ) < y + h))
    (halpha : fg.pix py px 3 = 255) (hc : c < 3) :
    (processPair fg ad).map (fun r => r.pix py px c) = some (fg.pix py px c) := by
  simp only [processPair, hch, eq_self_iff_true, if_true]
  rw [hloc]
  show some ((composite fg (canvasOf fg.h fg.w
      (fitAd (if ad.ch = 4 then flattenBGR ad else ad) w.toNat h.toNat)
      x y w h)).pix py px c) = some (fg.pix py px c)
  congr 1
  show blendChan (fg.pix py px c)
      (if x ≤ (px : ℤ) ∧ (px : ℤ) < x + w ∧ y ≤ (py : ℤ) ∧ (py : ℤ) < y + h then
        (fitAd (if ad.ch = 4 then flattenBGR ad else ad) w.toNat h.toNat).pix
          ((py : ℤ) - y).toNat ((px : ℤ) - x).toNat c
      else 0)
      (fg.pix py px 3) = fg.pix py px c
  rw [if_neg hout, halpha, blendChan_opaque]

/-- Witness for C3 (amended): a foreground with a single rectangular hole,
evaluated at an opaque pixel outside the hole. -/
theorem C3_outside_box_shows_foreground_witness :
    (processPair (rectImg 5 4 0 2 2 2) adOne).map (fun r => r.pix 0 4 0) =
      some 100 := by
  have hloc : locate (rectImg 5 4 0 2 2 2) = some (0, 2, 2, 2) := by
    have := locate_rect 5 4 0 2 2 2 (by decide) (by decide) (by decide) (by decide)
    exact_mod_cast this
  have := C3_outside_box_shows_foreground (rectImg 5 4 0 2 2 2) adOne 0 2 2 2 4 0 0
    rfl hloc (by decide) rfl (by decide)
  exact this.trans rfl

/-- **C3 (counterexample).** The claim "every output pixel outside the box
equals the foreground's RGB, because the foreground is fully opaque there"
is false on `fgC3`: besides the located 2x2 region there is a second, lone
transparent pixel at (4, 0), outside the returned box `(0, 2, 2, 2)`.  The
foreground is not opaque there (alpha 0), and the output pixel is the black
canvas value 0, not the foreground's RGB value 200. -/
theorem C3_outside_box_counterexample :
    locate fgC3 = some (0, 2, 2, 2) ∧
    ¬ ((0 : ℤ) ≤ (4 : ℤ) ∧ (4 : ℤ) < 0 + 2 ∧ (2 : ℤ) ≤ (0 : ℤ) ∧ (0 : ℤ) < 2 + 2) ∧
    fgC3.pix 0 4 3 = 0 ∧
    fgC3.pix 0 4 0 = 200 ∧
    (processPair fgC3 adOne).map (fun r => r.pix 0 4 0) = some 0 ∧
    (0 : Nat) ≠ 200 :=
  ⟨by decide, by decide, rfl, rfl, by decide, by decide⟩

/-! ### Bit-accurate binary64 model of the blend (line 91)

`result = (fg * alpha_3d + bg * (1 - alpha_3d)).astype(np.uint8)` is numpy
float64 arithmetic: `alpha = a / 255.0` (one IEEE division), then per
channel one multiplication `fg * alpha`, one subtraction `1 - alpha`, one
multiplication `bg * (1 - alpha)`, one addition, each rounded to the
nearest binary64 value (round-to-nearest, ties to even), and finally a C
cast to `uint8` (truncation toward zero).  All values arising here are in
the normal range, far from overflow and underflow, so binary64 rounding is
exactly: the nearest integer multiple of `2^(e-52)` (ties to even), where
`2^e ≤ |q| < 2^(e+1)`.  The model below implements that rounding on `ℚ`
and chains the five operations. -/

/-- Countdown search for the binary exponent: the largest `e ≤ e0` with
`2^e ≤ q` (fuelled). -/
def findExpGo (q : ℚ) : Nat → ℤ → ℤ
  | 0, e => e
  | fuel + 1, e => if (2 : ℚ) ^ e ≤ q then e else findExpGo q fuel (e - 1)

/-- Floor of the binary logarithm of a positive rational; correct on
`[2^(-200), 2^100]`, which covers every value arising in the blend. -/
def findExp (q : ℚ) : ℤ := findExpGo q 301 100

/-- Round a rational to the nearest integer, ties to even. -/
def rne (u : ℚ) : ℤ :=
  if u - ⌊u⌋ < 1 / 2 then ⌊u⌋
  else if 1 / 2 < u - ⌊u⌋ then ⌊u⌋ + 1
  else if 2 ∣ ⌊u⌋ then ⌊u⌋ else ⌊u⌋ + 1

/-- Round a positive rational to the nearest binary64 value (normal range):
the nearest multiple of `2^(findExp q - 52)`, ties to even mantissa. -/
def rndPos (q : ℚ) : ℚ :=
  ((rne (q / (2 : ℚ) ^ (findExp q - 52)) : ℤ) : ℚ) * (2 : ℚ) ^ (findExp q - 52)

/-- Round a rational to the nearest binary64 value (IEEE-754
round-to-nearest-even, the mode numpy float64 arithmetic uses). -/
def rnd (q : ℚ) : ℚ :=
  if q = 0 then 0 else if 0 < q then rndPos q else -(rndPos (-q))

/-- One float64 division. -/
def fdiv (x y : ℚ) : ℚ := rnd (x / y)

/-- One float64 multiplication. -/
def fmul (x y : ℚ) : ℚ := rnd (x * y)

/-- One float64 subtraction. -/
def fsub (x y : ℚ) : ℚ := rnd (x - y)

/-- One float64 addition. -/
def fadd (x y : ℚ) : ℚ := rnd (x + y)

/-- One channel of the line-91 blend with bit-accurate float64 semantics:
`alpha = a / 255.0`; `fg * alpha + bg * (1 - alpha)` with every operation
rounded; `astype(np.uint8)` truncates toward zero (`Int.toNat ∘ Int.floor`
agrees with C truncation on the range `(-1, 256)` arising here). -/
def blendChanF (f b a : Nat) : Nat :=
  let al := fdiv (a : ℚ) 255
  let t1 := fmul (f : ℚ) al
  let u := fsub 1 al
  let t2 := fmul (b : ℚ) u
  let s := fadd t1 t2
  (⌊s⌋).toNat

/-- Lines 85-91 with bit-accurate float64 arithmetic (`composite` above is
the exact-rational simplification of the same lines, exact at alpha 0 and
255). -/
def compositeF (fg bg : Img) : Img :=
  { h := fg.h, w := fg.w, ch := 3,
    pix := fun j i c => blendChanF (fg.pix j i c) (bg.pix j i c) (fg.pix j i 3) }

theorem findExpGo_eq (q : ℚ) (e : ℤ) (hlow : (2 : ℚ) ^ e ≤ q)
    (hhigh : q < (2 : ℚ) ^ (e + 1)) :
    ∀ (fuel : Nat) (e0 : ℤ), e ≤ e0 → (e0 - e).toNat ≤ fuel →
    findExpGo q fuel e0 = e := by
  intro fuel
  induction fuel with
  | zero =>
    intro e0 h1 h2
    have : e0 = e := by omega
    rw [this]
    rfl
  | succ fuel2 ih =>
    intro e0 h1 h2
    by_cases he0 : e0 = e
    · subst he0
      unfold findExpGo
      rw [if_pos hlow]
    · have hgt : e + 1 ≤ e0 := by omega
      have hmono : (2 : ℚ) ^ (e + 1) ≤ (2 : ℚ) ^ e0 :=
        zpow_le_zpow_right₀ (by norm_num) hgt
      have hnot : ¬ ((2 : ℚ) ^ e0 ≤ q) := by
        intro hcon
        have : q < q := lt_of_lt_of_le hhigh (le_trans hmono hcon)
        exact absurd this (lt_irrefl q)
      unfold findExpGo
      rw [if_neg hnot]
      exact ih (e0 - 1) (by omega) (by omega)

theorem findExp_eq (q : ℚ) (e : ℤ) (he1 : -200 ≤ e) (he2 : e ≤ 100)
    (hlow : (2 : ℚ) ^ e ≤ q) (hhigh : q < (2 : ℚ) ^ (e + 1)) :
    findExp q = e :=
  findExpGo_eq q e hlow hhigh 301 100 he2 (by omega)

theorem rne_err (u : ℚ) :
    u - 1 / 2 ≤ ((rne u : ℤ) : ℚ) ∧ ((rne u : ℤ) : ℚ) ≤ u + 1 / 2 := by
  have h1 : ((⌊u⌋ : ℤ) : ℚ) ≤ u := Int.floor_le u
  have h2 : u < ((⌊u⌋ : ℤ) : ℚ) + 1 := Int.lt_floor_add_one u
  unfold rne
  split_ifs with hc1 hc2 hc3 <;> constructor <;> push_cast <;> linarith

theorem rne_intCast (k : ℤ) : rne ((k : ℚ)) = k := by
  unfold rne
  rw [Int.floor_intCast]
  rw [if_pos (by norm_num)]

theorem rndPos_repr (q : ℚ) (e : ℤ) (he1 : -200 ≤ e) (he2 : e ≤ 100)
    (hlow : (2 : ℚ) ^ e ≤ q) (hhigh : q < (2 : ℚ) ^ (e + 1)) :
    rnd q = ((rne (q / (2 : ℚ) ^ (e - 52)) : ℤ) : ℚ) * (2 : ℚ) ^ (e - 52) := by
  have hq : 0 < q := lt_of_lt_of_le (zpow_pos (by norm_num) e) hlow
  unfold rnd
  rw [if_neg (ne_of_gt hq), if_pos hq]
  unfold rndPos
  rw [findExp_eq q e he1 he2 hlow hhigh]

theorem rnd_zero : rnd 0 = 0 := by
  unfold rnd
  rw [if_pos rfl]

theorem rnd_err2 (q : ℚ) (hlb : 1 / (2 : ℚ) ^ (200 : ℕ) ≤ q)
    (hub : q ≤ (2 : ℚ) ^ (60 : ℕ)) :
    q - q / (2 : ℚ) ^ (52 : ℕ) ≤ rnd q ∧ rnd q ≤ q + q / (2 : ℚ) ^ (52 : ℕ) := by
  have hq : 0 < q := lt_of_lt_of_le (by positivity) hlb
  obtain ⟨e, hmem⟩ := exists_mem_Ico_zpow hq (by norm_num : (1 : ℚ) < 2)
  obtain ⟨hlow, hhigh⟩ := Set.mem_Ico.mp hmem
  have he2 : e ≤ 100 := by
    by_contra hcon
    have h1 : (2 : ℚ) ^ ((60 : ℕ) : ℤ) < (2 : ℚ) ^ e :=
      zpow_lt_zpow_right₀ (by norm_num) (by omega)
    rw [zpow_natCast] at h1
    have := lt_of_le_of_lt (le_trans hlow hub) h1
    exact absurd this (lt_irrefl _)
  have he1 : -200 ≤ e := by
    by_contra hcon
    have h1 : (2 : ℚ) ^ (e + 1) ≤ (2 : ℚ) ^ (-(200 : ℤ)) :=
      zpow_le_zpow_right₀ (by norm_num) (by omega)
    have h2 : (2 : ℚ) ^ (-(200 : ℤ)) = 1 / (2 : ℚ) ^ (200 : ℕ) := by
      rw [zpow_neg, one_div]
      norm_num
    have := lt_of_lt_of_le hhigh (h2 ▸ h1)
    exact absurd (lt_of_le_of_lt hlb this) (lt_irrefl _)
  rw [rndPos_repr q e he1 he2 hlow hhigh]
  have h2p : (0 : ℚ) < (2 : ℚ) ^ (e - 52) := zpow_pos (by norm_num) _
  have hu : q / (2 : ℚ) ^ (e - 52) * (2 : ℚ) ^ (e - 52) = q :=
    div_mul_cancel₀ q (ne_of_gt h2p)
  obtain ⟨hr1, hr2⟩ := rne_err (q / (2 : ℚ) ^ (e - 52))
  have hb1 : (q / (2 : ℚ) ^ (e - 52) - 1 / 2) * (2 : ℚ) ^ (e - 52) ≤
      ((rne (q / (2 : ℚ) ^ (e - 52)) : ℤ) : ℚ) * (2 : ℚ) ^ (e - 52) :=
    mul_le_mul_of_nonneg_right hr1 (le_of_lt h2p)
  have hb2 : ((rne (q / (2 : ℚ) ^ (e - 52)) : ℤ) : ℚ) * (2 : ℚ) ^ (e - 52) ≤
      (q / (2 : ℚ) ^ (e - 52) + 1 / 2) * (2 : ℚ) ^ (e - 52) :=
    mul_le_mul_of_nonneg_right hr2 (le_of_lt h2p)
  rw [sub_mul, hu] at hb1
  rw [add_mul, hu] at hb2
  have hhalf : 1 / 2 * (2 : ℚ) ^ (e - 52) ≤ q / (2 : ℚ) ^ (52 : ℕ) := by
    have hsplit : (2 : ℚ) ^ (e - 52) = (2 : ℚ) ^ e * ((2 : ℚ) ^ (52 : ℕ))⁻¹ := by
      rw [← zpow_natCast (2 : ℚ) 52, ← zpow_neg,
        ← zpow_add₀ (by norm_num : (2 : ℚ) ≠ 0)]
      congr 1
    have hepos : (0 : ℚ) < (2 : ℚ) ^ e := zpow_pos (by norm_num) e
    have hkey : 1 / 2 * (2 : ℚ) ^ e ≤ q := by linarith
    have hinv : (0 : ℚ) ≤ ((2 : ℚ) ^ (52 : ℕ))⁻¹ := by positivity
    calc 1 / 2 * (2 : ℚ) ^ (e - 52)
        = 1 / 2 * (2 : ℚ) ^ e * ((2 : ℚ) ^ (52 : ℕ))⁻¹ := by rw [hsplit]; ring
      _ ≤ q * ((2 : ℚ) ^ (52 : ℕ))⁻¹ := mul_le_mul_of_nonneg_right hkey hinv
      _ = q / (2 : ℚ) ^ (52 : ℕ) := by rw [div_eq_mul_inv]
  constructor
  · calc q - q / (2 : ℚ) ^ (52 : ℕ) ≤ q - 1 / 2 * (2 : ℚ) ^ (e - 52) := by linarith
      _ ≤ _ := hb1
  · calc ((rne (q / (2 : ℚ) ^ (e - 52)) : ℤ) : ℚ) * (2 : ℚ) ^ (e - 52)
        ≤ q + 1 / 2 * (2 : ℚ) ^ (e - 52) := hb2
      _ ≤ q + q / (2 : ℚ) ^ (52 : ℕ) := by linarith

/-- Rounding error bound covering the exact-zero case: every value fed to
`rnd` in the blend is either 0 or at least `2^(-200)`. -/
theorem rnd_err3 (q : ℚ) (hc : q = 0 ∨ 1 / (2 : ℚ) ^ (200 : ℕ) ≤ q)
    (hub : q ≤ (2 : ℚ) ^ (60 : ℕ)) :
    q - q / (2 : ℚ) ^ (52 : ℕ) ≤ rnd q ∧ rnd q ≤ q + q / (2 : ℚ) ^ (52 : ℕ) := by
  rcases hc with h0 | hlb
  · subst h0
    rw [rnd_zero]
    norm_num
  · exact rnd_err2 q hlb hub

theorem rnd_nat255 (n : Nat) (hn : n ≤ 255) : rnd ((n : ℚ)) = (n : ℚ) := by
  rcases Nat.eq_zero_or_pos n with h0 | h1
  · subst h0
    rw [Nat.cast_zero, rnd_zero]
  · have hq : (0 : ℚ) < (n : ℚ) := by exact_mod_cast h1
    obtain ⟨e, hmem⟩ := exists_mem_Ico_zpow hq (by norm_num : (1 : ℚ) < 2)
    obtain ⟨hlow, hhigh⟩ := Set.mem_Ico.mp hmem
    have h256 : (2 : ℚ) ^ ((8 : ℕ) : ℤ) = 256 := by
      rw [zpow_natCast]
      norm_num
    have he2 : e ≤ 7 := by
      by_contra hcon
      have hmono : (2 : ℚ) ^ ((8 : ℕ) : ℤ) ≤ (2 : ℚ) ^ e :=
        zpow_le_zpow_right₀ (by norm_num) (by omega)
      rw [h256] at hmono
      have hn2 : (n : ℚ) ≤ 255 := by exact_mod_cast hn
      linarith [le_trans hmono hlow]
    have he1 : 0 ≤ e := by
      by_contra hcon
      have hmono : (2 : ℚ) ^ (e + 1) ≤ (2 : ℚ) ^ ((0 : ℕ) : ℤ) :=
        zpow_le_zpow_right₀ (by norm_num) (by omega)
      rw [zpow_natCast] at hmono
      norm_num at hmono
      have hn1 : (1 : ℚ) ≤ (n : ℚ) := by exact_mod_cast h1
      linarith
    rw [rndPos_repr (n : ℚ) e (by omega) (by omega) hlow hhigh]
    have htn : (((52 - e).toNat : ℕ) : ℤ) = 52 - e := Int.toNat_of_nonneg (by omega)
    have hz : (2 : ℚ) ^ ((52 : ℤ) - e) = (2 : ℚ) ^ ((52 - e).toNat) := by
      conv_lhs => rw [← htn]
      rw [zpow_natCast]
    have hu : (n : ℚ) / (2 : ℚ) ^ (e - 52) = (((n : ℤ) * 2 ^ ((52 - e).toNat) : ℤ) : ℚ) := by
      rw [div_eq_mul_inv, ← zpow_neg]
      have hneg : -(e - 52) = 52 - e := by ring
      rw [hneg, hz]
      push_cast
      ring
    rw [hu, rne_intCast, ← hu]
    exact div_mul_cancel₀ _ (ne_of_gt (zpow_pos (by norm_num) _))

theorem rnd_eq_down (q : ℚ) (e n : ℤ) (he1 : -200 ≤ e) (he2 : e ≤ 100)
    (hlow : (2 : ℚ) ^ e ≤ q) (hhigh : q < (2 : ℚ) ^ (e + 1))
    (hn1 : (n : ℚ) * (2 : ℚ) ^ (e - 52) ≤ q)
    (hn2 : q < ((n : ℚ) + 1 / 2) * (2 : ℚ) ^ (e - 52)) :
    rnd q = (n : ℚ) * (2 : ℚ) ^ (e - 52) := by
  rw [rndPos_repr q e he1 he2 hlow hhigh]
  have h2p : (0 : ℚ) < (2 : ℚ) ^ (e - 52) := zpow_pos (by norm_num) _
  have hu1 : (n : ℚ) ≤ q / (2 : ℚ) ^ (e - 52) := (le_div_iff₀ h2p).mpr hn1
  have hu2 : q / (2 : ℚ) ^ (e - 52) < (n : ℚ) + 1 / 2 := (div_lt_iff₀ h2p).mpr hn2
  have hfl : ⌊q / (2 : ℚ) ^ (e - 52)⌋ = n := by
    rw [Int.floor_eq_iff]
    constructor
    · exact hu1
    · push_cast
      linarith
  have hrne : rne (q / (2 : ℚ) ^ (e - 52)) = n := by
    unfold rne
    rw [hfl]
    rw [if_pos (by push_cast at hu1 hu2 ⊢; linarith)]
  rw [hrne]

theorem rnd_one : rnd (1 : ℚ) = 1 := by
  have h := rnd_nat255 1 (by norm_num)
  simpa using h

theorem blendChanF_eval_zero (f b : Nat) (hb : b ≤ 255) :
    blendChanF f b 0 = b := by
  simp only [blendChanF, fdiv, fmul, fsub, fadd, Nat.cast_zero, zero_div,
    rnd_zero, mul_zero, sub_zero, rnd_one, mul_one, rnd_nat255 b hb, zero_add]
  rw [Int.floor_natCast]
  exact Int.toNat_natCast b

theorem blendChanF_eval_full (f b : Nat) (hf : f ≤ 255) :
    blendChanF f b 255 = f := by
  have h1 : ((255 : Nat) : ℚ) / 255 = 1 := by norm_num
  simp only [blendChanF, fdiv, fmul, fsub, fadd, h1, rnd_one, mul_one,
    sub_self, rnd_zero, mul_zero, rnd_nat255 f hf, add_zero]
  rw [Int.floor_natCast]
  exact Int.toNat_natCast f

theorem blendChanF_eval_black (a : Nat) : blendChanF 0 0 a = 0 := by
  simp only [blendChanF, fdiv, fmul, fsub, fadd, Nat.cast_zero, zero_mul,
    rnd_zero, add_zero, zero_add]
  simp

set_option maxHeartbeats 4000000 in
/-- The float64 blend of line 91 keeps every channel within one unit below
the minimum and never above the maximum of the two source samples (the
counterexample shows the one-unit slack is really needed). -/
theorem blendChanF_bounds (f b a : Nat) (hf : f ≤ 255) (hb : b ≤ 255)
    (ha : a ≤ 255) :
    min f b - 1 ≤ blendChanF f b a ∧ blendChanF f b a ≤ max f b ∧
    blendChanF f b a ≤ 255 := by
  by_cases ha0 : a = 0
  · subst ha0
    rw [blendChanF_eval_zero f b hb]
    omega
  by_cases ha255 : a = 255
  · subst ha255
    rw [blendChanF_eval_full f b hf]
    omega
  by_cases hfb : f = 0 ∧ b = 0
  · obtain ⟨hf0, hb0⟩ := hfb
    subst hf0
    subst hb0
    rw [blendChanF_eval_black a]
    omega
  -- main case: 1 ≤ a ≤ 254 and at least one of f, b is positive
  simp only [blendChanF, fdiv, fmul, fsub, fadd]
  have hC : ((2 : ℚ) ^ (52 : ℕ)) = 4503599627370496 := by norm_num
  have h200 : (1 : ℚ) / (2 : ℚ) ^ (200 : ℕ) ≤ 1 / 512 := by norm_num
  have h60 : (520 : ℚ) ≤ (2 : ℚ) ^ (60 : ℕ) := by norm_num
  have hA1 : (1 : ℚ) ≤ (a : ℚ) := by exact_mod_cast (by omega : 1 ≤ a)
  have hA2 : (a : ℚ) ≤ 254 := by exact_mod_cast (by omega : a ≤ 254)
  have hfnn : (0 : ℚ) ≤ (f : ℚ) := by positivity
  have hfle : (f : ℚ) ≤ 255 := by exact_mod_cast hf
  have hbnn : (0 : ℚ) ≤ (b : ℚ) := by positivity
  have hble : (b : ℚ) ≤ 255 := by exact_mod_cast hb
  -- alpha
  have hal := rnd_err3 ((a : ℚ) / 255)
    (Or.inr (by
      have : (1 : ℚ) / 512 ≤ (a : ℚ) / 255 := by linarith
      linarith))
    (by linarith)
  rw [hC] at hal
  obtain ⟨hal1, hal2⟩ := hal
  set al := rnd ((a : ℚ) / 255) with hal_def
  clear_value al
  have halnn : (0 : ℚ) ≤ al := by linarith
  have hallb : (1 : ℚ) / 512 ≤ al := by linarith
  have halub : al ≤ 511 / 512 := by linarith
  -- t1 = rnd (f * al)
  have hfalnn : (0 : ℚ) ≤ (f : ℚ) * al := mul_nonneg hfnn halnn
  have hfalub : (f : ℚ) * al ≤ 256 := by
    have h := mul_le_mul hfle (show al ≤ 1 by linarith) halnn
      (by norm_num : (0 : ℚ) ≤ 255)
    linarith
  have ht1 := rnd_err3 ((f : ℚ) * al)
    (by
      rcases Nat.eq_zero_or_pos f with hf0 | hf1
      · left
        rw [hf0]
        push_cast
        ring
      · right
        have h1f : (1 : ℚ) ≤ (f : ℚ) := by exact_mod_cast hf1
        have h := le_mul_of_one_le_left halnn h1f
        linarith)
    (by linarith)
  rw [hC] at ht1
  obtain ⟨ht1a, ht1b⟩ := ht1
  set t1 := rnd ((f : ℚ) * al) with ht1_def
  clear_value t1
  have ht1nn : (0 : ℚ) ≤ t1 := by linarith
  have ht1ub : t1 ≤ 257 := by linarith
  -- u = rnd (1 - al)
  have hual := rnd_err3 (1 - al)
    (Or.inr (by linarith))
    (by linarith)
  rw [hC] at hual
  obtain ⟨hu1, hu2⟩ := hual
  set u := rnd (1 - al) with hu_def
  clear_value u
  have hunn : (0 : ℚ) ≤ u := by linarith
  have huub : u ≤ 1 := by linarith
  have hulb : (1 : ℚ) / 1024 ≤ u := by linarith
  -- t2 = rnd (b * u)
  have hbunn : (0 : ℚ) ≤ (b : ℚ) * u := mul_nonneg hbnn hunn
  have hbuub : (b : ℚ) * u ≤ 256 := by
    have h := mul_le_mul hble huub hunn (by norm_num : (0 : ℚ) ≤ 255)
    linarith
  have ht2 := rnd_err3 ((b : ℚ) * u)
    (by
      rcases Nat.eq_zero_or_pos b with hb0 | hb1
      · left
        rw [hb0]
        push_cast
        ring
      · right
        have h1b : (1 : ℚ) ≤ (b : ℚ) := by exact_mod_cast hb1
        have h := le_mul_of_one_le_left hunn h1b
        linarith)
    (by linarith)
  rw [hC] at ht2
  obtain ⟨ht2a, ht2b⟩ := ht2
  set t2 := rnd ((b : ℚ) * u) with ht2_def
  clear_value t2
  have ht2nn : (0 : ℚ) ≤ t2 := by linarith
  have ht2ub : t2 ≤ 257 := by linarith
  -- s = rnd (t1 + t2)
  have hq5nn : (0 : ℚ) ≤ t1 + t2 := by linarith
  have hq5ub : t1 + t2 ≤ 514 := by linarith
  have hq5lb : t1 + t2 = 0 ∨ (1 : ℚ) / 2048 ≤ t1 + t2 := by
    rcases (by omega : 1 ≤ f ∨ 1 ≤ b) with hf1 | hb1
    · right
      have h1f : (1 : ℚ) ≤ (f : ℚ) := by exact_mod_cast hf1
      have hP1 := le_mul_of_one_le_left halnn h1f
      linarith
    · right
      have h1b : (1 : ℚ) ≤ (b : ℚ) := by exact_mod_cast hb1
      have hP2 := le_mul_of_one_le_left hunn h1b
      linarith
  have hs := rnd_err3 (t1 + t2)
    (by
      rcases hq5lb with h0 | hlb
      · exact Or.inl h0
      · right
        have : (1 : ℚ) / (2 : ℚ) ^ (200 : ℕ) ≤ 1 / 2048 := by norm_num
        linarith)
    (by linarith)
  rw [hC] at hs
  obtain ⟨hs1, hs2⟩ := hs
  set s := rnd (t1 + t2) with hs_def
  clear_value s
  -- the exact blend and its convexity bounds
  have hminf : ((min f b : ℕ) : ℚ) ≤ (f : ℚ) := by exact_mod_cast Nat.min_le_left f b
  have hminb : ((min f b : ℕ) : ℚ) ≤ (b : ℚ) := by exact_mod_cast Nat.min_le_right f b
  have hmaxf : (f : ℚ) ≤ ((max f b : ℕ) : ℚ) := by exact_mod_cast Nat.le_max_left f b
  have hmaxb : (b : ℚ) ≤ ((max f b : ℕ) : ℚ) := by exact_mod_cast Nat.le_max_right f b
  have hAnn : (0 : ℚ) ≤ (a : ℚ) / 255 := by linarith
  have hAle1 : (a : ℚ) / 255 ≤ 1 := by linarith
  have hAnn2 : (0 : ℚ) ≤ 1 - (a : ℚ) / 255 := by linarith
  have hexlo : ((min f b : ℕ) : ℚ) ≤ (f : ℚ) * ((a : ℚ) / 255) + (b : ℚ) * (1 - (a : ℚ) / 255) := by
    linarith [mul_le_mul_of_nonneg_right hminf hAnn,
      mul_le_mul_of_nonneg_right hminb hAnn2]
  have hexhi : (f : ℚ) * ((a : ℚ) / 255) + (b : ℚ) * (1 - (a : ℚ) / 255) ≤ ((max f b : ℕ) : ℚ) := by
    linarith [mul_le_mul_of_nonneg_right hmaxf hAnn,
      mul_le_mul_of_nonneg_right hmaxb hAnn2]
  -- error accumulation: |s - exact| < 1/4
  have hfA : (f : ℚ) * ((a : ℚ) / 255) ≤ 255 := by
    have h := mul_le_mul hfle hAle1 hAnn (by norm_num : (0 : ℚ) ≤ 255)
    linarith
  have hbA : (b : ℚ) * ((a : ℚ) / 255) ≤ 255 := by
    have h := mul_le_mul hble hAle1 hAnn (by norm_num : (0 : ℚ) ≤ 255)
    linarith
  have hbalnn : (0 : ℚ) ≤ (b : ℚ) * al := mul_nonneg hbnn halnn
  have herr1 : (f : ℚ) * al - (f : ℚ) * ((a : ℚ) / 255) ≤ 255 / 4503599627370496 := by
    linarith [mul_le_mul_of_nonneg_left hal2 hfnn, hfA]
  have herr1b : (f : ℚ) * ((a : ℚ) / 255) - (f : ℚ) * al ≤ 255 / 4503599627370496 := by
    linarith [mul_le_mul_of_nonneg_left hal1 hfnn, hfA]
  have herr2 : (b : ℚ) * u - (b : ℚ) * (1 - (a : ℚ) / 255) ≤ 765 / 4503599627370496 := by
    linarith [mul_le_mul_of_nonneg_left hu2 hbnn,
      mul_le_mul_of_nonneg_left hal1 hbnn, hbalnn, hbA, hble]
  have herr2b : (b : ℚ) * (1 - (a : ℚ) / 255) - (b : ℚ) * u ≤ 765 / 4503599627370496 := by
    linarith [mul_le_mul_of_nonneg_left hu1 hbnn,
      mul_le_mul_of_nonneg_left hal2 hbnn, hbalnn, hbA, hble]
  have hslo : ((min f b : ℕ) : ℚ) - 1 / 4 ≤ s := by linarith
  have hshi : s ≤ ((max f b : ℕ) : ℚ) + 1 / 4 := by linarith
  -- floor and cast back to ℕ
  have hfl1 : ⌊s⌋ ≤ (max f b : ℤ) := by
    have h : ⌊s⌋ < (max f b : ℤ) + 1 := by
      rw [Int.floor_lt]
      push_cast at hshi ⊢
      linarith
    omega
  have hfl2 : (min f b : ℤ) - 1 ≤ ⌊s⌋ := by
    rw [Int.le_floor]
    push_cast at hslo ⊢
    linarith
  omega

/-- The exact float64 evaluation of the blend at foreground 3, background 3,
alpha 5: every one of the five roundings rounds down, the sum comes out as
6755399441055743 / 2^51 = 2.9999999999999996, and the truncating uint8 cast
yields 2.  Each step is justified through `rnd_eq_down` with the exact
binary64 mantissa of the intermediate value. -/
theorem blendChanF_3_3_5 : blendChanF 3 3 5 = 2 := by
  have h1 : rnd ((5 : ℚ) / 255) = 5651576002974740 / 288230376151711744 := by
    rw [rnd_eq_down ((5 : ℚ) / 255) (-6) 5651576002974740
      (by norm_num) (by norm_num) (by norm_num) (by norm_num) (by norm_num) (by norm_num)]
    norm_num
  have h2 : rnd ((3 : ℚ) * (5651576002974740 / 288230376151711744)) =
      8477364004462110 / 144115188075855872 := by
    rw [rnd_eq_down _ (-5) 8477364004462110
      (by norm_num) (by norm_num) (by norm_num) (by norm_num) (by norm_num) (by norm_num)]
    norm_num
  have h3 : rnd (1 - (5651576002974740 / 288230376151711744 : ℚ)) =
      8830587504648031 / 9007199254740992 := by
    rw [rnd_eq_down _ (-1) 8830587504648031
      (by norm_num) (by norm_num) (by norm_num) (by norm_num) (by norm_num) (by norm_num)]
    norm_num
  have h4 : rnd ((3 : ℚ) * (8830587504648031 / 9007199254740992)) =
      6622940628486023 / 2251799813685248 := by
    rw [rnd_eq_down _ 1 6622940628486023
      (by norm_num) (by norm_num) (by norm_num) (by norm_num) (by norm_num) (by norm_num)]
    norm_num
  have h5 : rnd ((8477364004462110 / 144115188075855872 : ℚ) +
      6622940628486023 / 2251799813685248) =
      6755399441055743 / 2251799813685248 := by
    rw [rnd_eq_down _ 1 6755399441055743
      (by norm_num) (by norm_num) (by norm_num) (by norm_num) (by norm_num) (by norm_num)]
    norm_num
  have hfl : ⌊(6755399441055743 / 2251799813685248 : ℚ)⌋ = 2 := by
    rw [Int.floor_eq_iff]
    constructor <;> norm_num
  simp only [blendChanF, fdiv, fmul, fsub, fadd, Nat.cast_ofNat]
  rw [h1, h2, h3, h4, h5, hfl]
  rfl

/-- **C10 (amended).** For every same-sized 4-channel foreground and 3-channel
background with 8-bit samples, each channel of every pixel of the float64
alpha compositor's output lies between `min fg bg - 1` and `max fg bg` of the
corresponding channel values, and never exceeds 255: the blend arithmetic
never wraps around or overflows the 8-bit range, but float64 rounding can
land the truncated result one unit below the exact minimum, so the claimed
lower bound `min fg bg ≤ out` is off by one (see
`C10_composite_float_counterexample`). -/
theorem C10_composite_float_channel_bounds (fg bg : Img) (j i c : Nat)
    (hf : fg.pix j i c ≤ 255) (hb : bg.pix j i c ≤ 255)
    (ha : fg.pix j i 3 ≤ 255) :
    min (fg.pix j i c) (bg.pix j i c) - 1 ≤ (compositeF fg bg).pix j i c ∧
    (compositeF fg bg).pix j i c ≤ max (fg.pix j i c) (bg.pix j i c) ∧
    (compositeF fg bg).pix j i c ≤ 255 :=
  blendChanF_bounds (fg.pix j i c) (bg.pix j i c) (fg.pix j i 3) hf hb ha

/-- Witness for C10 at a concrete pixel: foreground 10, background 200,
alpha 128. -/
theorem C10_composite_float_channel_bounds_witness :
    min (({ h := 1, w := 1, ch := 4, pix := fun _ _ c => if c = 3 then 128 else 10 } : Img).pix 0 0 0)
        (({ h := 1, w := 1, ch := 3, pix := fun _ _ _ => 200 } : Img).pix 0 0 0) - 1
      ≤ (compositeF
          { h := 1, w := 1, ch := 4, pix := fun _ _ c => if c = 3 then 128 else 10 }
          { h := 1, w := 1, ch := 3, pix := fun _ _ _ => 200 }).pix 0 0 0 ∧
    (compositeF
        { h := 1, w := 1, ch := 4, pix := fun _ _ c => if c = 3 then 128 else 10 }
        { h := 1, w := 1, ch := 3, pix := fun _ _ _ => 200 }).pix 0 0 0
      ≤ max (({ h := 1, w := 1, ch := 4, pix := fun _ _ c => if c = 3 then 128 else 10 } : Img).pix 0 0 0)
          (({ h := 1, w := 1, ch := 3, pix := fun _ _ _ => 200 } : Img).pix 0 0 0) ∧
    (compositeF
        { h := 1, w := 1, ch := 4, pix := fun _ _ c => if c = 3 then 128 else 10 }
        { h := 1, w := 1, ch := 3, pix := fun _ _ _ => 200 }).pix 0 0 0 ≤ 255 :=
  C10_composite_float_channel_bounds
    { h := 1, w := 1, ch := 4, pix := fun _ _ c => if c = 3 then 128 else 10 }
    { h := 1, w := 1, ch := 3, pix := fun _ _ _ => 200 }
    0 0 0 (by decide) (by decide) (by decide)

/-- **C10 counterexample.** At foreground channel value 3, background channel
value 3, alpha 5, the program's float64 blend computes 2.9999999999999996 and
the truncating uint8 cast yields 2, strictly below min(fg, bg) = 3: the
claimed lower bound `min fg bg ≤ out` is false of the program. -/
theorem C10_composite_float_counterexample :
    blendChanF 3 3 5 = 2 ∧
    (compositeF
        { h := 1, w := 1, ch := 4, pix := fun _ _ c => if c = 3 then 5 else 3 }
        { h := 1, w := 1, ch := 3, pix := fun _ _ _ => 3 }).pix 0 0 0 = 2 ∧
    ¬ (min 3 3 ≤ 2) := by
  refine ⟨blendChanF_3_3_5, ?_, by decide⟩
  have h : (compositeF
      { h := 1, w := 1, ch := 4, pix := fun _ _ c => if c = 3 then 5 else 3 }
      { h := 1, w := 1, ch := 3, pix := fun _ _ _ => 3 }).pix 0 0 0
      = blendChanF 3 3 5 := rfl
  rw [h, blendChanF_3_3_5]
